import Mathlib

/-!
Verification model of the Fontra FontHandler (src/fontra/core/fonthandler.py).

Python dictionaries are modelled as association lists in insertion order:
assignment to an existing key replaces the value in place (the key keeps its
position), assignment to a new key appends at the end, exactly like CPython
dict semantics.  (A Python dict never holds two bindings of the same key, so
replacing the first binding is a faithful model.)  This order fidelity
matters for the write scheduler, whose coalescing/FIFO behaviour depends on
it.

The change-pattern algebra lives in fontra/core/changes.py, which is not part
of the sources under review; the pattern operations used here are modelled
from the specification and are marked as such in their doc comments.
-/

namespace Fontra

/-! ## Python dict model (association lists in insertion order) -/

section Dict

variable {α : Type} {β : Type} [DecidableEq α]

/-- Lookup of the first binding of a key, like Python dict indexing. -/
def dictGet : List (α × β) → α → Option β
  | [], _ => none
  | (k, v) :: rest, k' => if k' = k then some v else dictGet rest k'

/-- Python dict assignment: replace the binding of an existing key in place
(keeping its position), or append a new binding at the end. -/
def dictSet : List (α × β) → α → β → List (α × β)
  | [], k, v => [(k, v)]
  | (a, b) :: rest, k, v =>
    if a = k then (k, v) :: rest else (a, b) :: dictSet rest k v

/-- Python dict.pop(k, None): remove the binding of a key. -/
def dictPop (m : List (α × β)) (k : α) : List (α × β) :=
  m.filter (fun p => p.1 ≠ k)

/-- The keys of a dict, in insertion order. -/
def dictKeys (m : List (α × β)) : List α := m.map Prod.fst

theorem dictGet_eq_none_iff (m : List (α × β)) (k : α) :
    dictGet m k = none ↔ k ∉ dictKeys m := by
  induction m with
  | nil => simp [dictGet, dictKeys]
  | cons p rest ih =>
    obtain ⟨a, b⟩ := p
    by_cases h : k = a <;> simp [dictGet, dictKeys, h] at ih ⊢
    · exact ih

theorem dictKeys_dictSet_mem (k : α) (v : β) :
    ∀ m : List (α × β), k ∈ dictKeys m → dictKeys (dictSet m k v) = dictKeys m := by
  intro m
  induction m with
  | nil => intro h; simp [dictKeys] at h
  | cons p rest ih =>
    obtain ⟨a, b⟩ := p
    intro h
    by_cases ha : a = k
    · simp [dictSet, dictKeys, ha]
    · have hk : k ∈ dictKeys rest := by
        rcases (by simpa [dictKeys] using h : k = a ∨ k ∈ dictKeys rest) with h1 | h1
        · exact absurd h1.symm ha
        · exact h1
      have hr := ih hk
      simp only [dictKeys] at hr
      simp only [dictSet, if_neg ha, dictKeys, List.map_cons, hr]

theorem dictKeys_dictSet_not_mem (k : α) (v : β) :
    ∀ m : List (α × β), k ∉ dictKeys m →
      dictKeys (dictSet m k v) = dictKeys m ++ [k] := by
  intro m
  induction m with
  | nil => intro _; simp [dictSet, dictKeys]
  | cons p rest ih =>
    obtain ⟨a, b⟩ := p
    intro h
    have ha : ¬ a = k := by
      intro hak
      exact h (by simp [dictKeys, hak])
    have hk : k ∉ dictKeys rest := by
      intro hmem
      exact h (by simp [dictKeys]; right; simpa [dictKeys] using hmem)
    have hr := ih hk
    simp only [dictKeys] at hr
    simp only [dictSet, if_neg ha, dictKeys, List.map_cons, hr, List.cons_append]

theorem dictGet_dictSet_self (m : List (α × β)) (k : α) (v : β) :
    dictGet (dictSet m k v) k = some v := by
  induction m with
  | nil => simp [dictSet, dictGet]
  | cons p rest ih =>
    obtain ⟨a, b⟩ := p
    by_cases ha : a = k
    · simp [dictSet, dictGet, ha]
    · simpa [dictSet, dictGet, ha, Ne.symm ha] using ih

theorem dictGet_dictSet_ne (m : List (α × β)) (k k' : α) (v : β)
    (h : k' ≠ k) : dictGet (dictSet m k v) k' = dictGet m k' := by
  induction m with
  | nil => simp [dictSet, dictGet, h]
  | cons p rest ih =>
    obtain ⟨a, b⟩ := p
    by_cases ha : a = k
    · subst ha
      simp [dictSet, dictGet, h]
    · by_cases hk : k' = a
      · simp [dictSet, dictGet, ha, hk]
      · simpa [dictSet, dictGet, ha, hk] using ih

theorem dictGet_dictPop_self (m : List (α × β)) (k : α) :
    dictGet (dictPop m k) k = none := by
  induction m with
  | nil => simp [dictPop, dictGet]
  | cons p rest ih =>
    obtain ⟨a, b⟩ := p
    by_cases h : a = k
    · simpa [dictPop, h] using ih
    · simpa [dictPop, dictGet, h, Ne.symm h] using ih

theorem dictGet_dictPop_ne (m : List (α × β)) (k k' : α) (h : k' ≠ k) :
    dictGet (dictPop m k) k' = dictGet m k' := by
  induction m with
  | nil => simp [dictPop]
  | cons p rest ih =>
    obtain ⟨a, b⟩ := p
    by_cases ha : a = k
    · subst ha
      simpa [dictPop, dictGet, h] using ih
    · by_cases hk : k' = a
      · simp [dictPop, dictGet, ha, hk]
      · simpa [dictPop, dictGet, ha, hk] using ih

theorem dictKeys_nodup_dictSet (m : List (α × β)) (k : α) (v : β)
    (h : (dictKeys m).Nodup) : (dictKeys (dictSet m k v)).Nodup := by
  by_cases hk : k ∈ dictKeys m
  · rw [dictKeys_dictSet_mem k v m hk]
    exact h
  · rw [dictKeys_dictSet_not_mem k v m hk]
    simpa [List.nodup_append] using ⟨h, hk⟩

end Dict

/-! ## Sorted iteration (Python sorted() on strings) -/

/-- Byte-wise comparison of character lists, used to model Python sorted(). -/
def charListLe : List Char → List Char → Bool
  | [], _ => true
  | _ :: _, [] => false
  | a :: as, b :: bs =>
    if a.val < b.val then true
    else if b.val < a.val then false
    else charListLe as bs

/-- String comparison for Python sorted(). -/
def strLe (a b : String) : Bool := charListLe a.data b.data

/-- Sorted insertion of one string. -/
def insertSorted (x : String) : List String → List String
  | [] => [x]
  | y :: ys => if strLe x y then x :: y :: ys else y :: insertSorted x ys

/-- Python sorted() on a list of strings (insertion sort; only the
multiset/membership behaviour matters for the claims below). -/
def sortedStrings : List String → List String
  | [] => []
  | x :: xs => insertSorted x (sortedStrings xs)

theorem mem_insertSorted (a x : String) (l : List String) :
    a ∈ insertSorted x l ↔ a = x ∨ a ∈ l := by
  induction l with
  | nil => simp [insertSorted]
  | cons y ys ih =>
    simp only [insertSorted]
    split
    · simp
    · simp [ih]
      tauto

theorem mem_sortedStrings (a : String) (l : List String) :
    a ∈ sortedStrings l ↔ a ∈ l := by
  induction l with
  | nil => simp [sortedStrings]
  | cons x xs ih => simp [sortedStrings, mem_insertSorted, ih]

/-! ## Data keys and change patterns

A DataKey (spec section 3) is either a bare root key string (cached under a
Python string key) or a two-tuple of the string "glyphs" and a glyph name. -/

/-- A cache / write-queue key: a bare root key string, or the tuple
("glyphs", glyphName). -/
inductive DataKey where
  | root (s : String)
  | glyph (name : String)
  deriving DecidableEq, Repr

/-- The path of a DataKey inside the Font tree. -/
def DataKey.path : DataKey → List String
  | .root s => [s]
  | .glyph n => ["glyphs", n]

mutual
/-- A pattern value: the null sentinel, or a nested mapping. -/
inductive PatVal where
  | sentinel : PatVal
  | sub : PatMap → PatVal
  deriving DecidableEq, Repr
/-- A pattern mapping, in Python dict insertion order. -/
inductive PatMap where
  | nil : PatMap
  | cons : String → PatVal → PatMap → PatMap
  deriving DecidableEq, Repr
end

/-- Lookup in a pattern mapping (first binding, like a Python dict). -/
def pmGet : PatMap → String → Option PatVal
  | .nil, _ => none
  | .cons k v rest, k' => if k' = k then some v else pmGet rest k'

/-- Concatenation of two pattern mappings. -/
def pmAppend : PatMap → PatMap → PatMap
  | .nil, b => b
  | .cons k v rest, b => .cons k v (pmAppend rest b)

/-- The keys of a pattern mapping, in order. -/
def pmKeys : PatMap → List String
  | .nil => []
  | .cons k _ rest => k :: pmKeys rest

/-- Is the pattern mapping empty? -/
def pmIsEmpty : PatMap → Bool
  | .nil => true
  | .cons _ _ _ => false

/-- The entries of a pattern mapping whose keys do not occur in the other
mapping, keeping their order. -/
def pmRightOnly : PatMap → PatMap → PatMap
  | .nil, _ => .nil
  | .cons k v rest, a =>
    match pmGet a k with
    | some _ => pmRightOnly rest a
    | none => .cons k v (pmRightOnly rest a)

theorem pmGet_sizeOf_lt :
    ∀ (b : PatMap) (k : String) (w : PatVal), pmGet b k = some w →
      sizeOf w < sizeOf b
  | .nil, k, w, h => by simp [pmGet] at h
  | .cons a v rest, k, w, h => by
    simp only [pmGet] at h
    split at h
    · cases h
      simp
      omega
    · have := pmGet_sizeOf_lt rest k w h
      simp
      omega

/-- Modelled from the spec: the pattern semantics of section 3 — a pattern
contains a path iff walking the path through the pattern terminates at a
sentinel or at an empty mapping. -/
def containsPath : PatMap → List String → Bool
  | m, [] => pmIsEmpty m
  | m, s :: rest =>
    match pmGet m s with
    | none => false
    | some .sentinel => true
    | some (.sub m2) => containsPath m2 rest

/-- Modelled from the spec: patternFromPath (fontra/core/changes.py, not in
the sources under review) builds the pattern of a single path — nested
singleton mappings ending in the null sentinel. -/
def patternFromPath : List String → PatMap
  | [] => .nil
  | [s] => .cons s .sentinel .nil
  | s :: rest => .cons s (.sub (patternFromPath rest)) .nil

/-- Model of fonthandler._writeKeyToPattern: wrap a bare key into a
one-segment path, then patternFromPath. -/
def writeKeyToPattern : DataKey → PatMap
  | .root s => patternFromPath [s]
  | .glyph n => patternFromPath ["glyphs", n]

mutual
/-- One entry of the left mapping merged against the right mapping. -/
def pmMergeLeft : PatMap → PatMap → PatMap
  | .nil, _ => .nil
  | .cons k v rest, b =>
    match hw : pmGet b k with
    | none => .cons k v (pmMergeLeft rest b)
    | some w => .cons k (unionVal v w) (pmMergeLeft rest b)
  termination_by a b => sizeOf a + sizeOf b
  decreasing_by
    all_goals simp_wf
    all_goals try omega
    all_goals have h9 := pmGet_sizeOf_lt b k w hw
    all_goals omega

/-- Union of two pattern values: a sentinel absorbs everything below it. -/
def unionVal : PatVal → PatVal → PatVal
  | .sentinel, _ => .sentinel
  | .sub _, .sentinel => .sentinel
  | .sub x, .sub y => .sub (patternUnion x y)
  termination_by v w => sizeOf v + sizeOf w
  decreasing_by
    all_goals simp_wf
    all_goals omega

/-- Modelled from the spec: patternUnion (fontra/core/changes.py, not in the
sources under review) — the lattice union of two patterns, computed like a
Python dict merge: keys of the first mapping in their order with values
merged recursively, then keys only in the second mapping appended in their
order. -/
def patternUnion (a b : PatMap) : PatMap :=
  pmAppend (pmMergeLeft a b) (pmRightOnly b a)
  termination_by sizeOf a + sizeOf b + 1
  decreasing_by
    all_goals simp_wf
    all_goals omega
end

mutual
/-- Difference of two pattern values: none means the value is removed
entirely.  Subtracting a sentinel removes everything below it; subtracting a
proper sub-mapping from a sentinel keeps the sentinel (the complement of a
subtree is not representable as a pattern). -/
def diffVal : PatVal → PatVal → Option PatVal
  | _, .sentinel => none
  | .sentinel, .sub _ => some .sentinel
  | .sub x, .sub y =>
    match patternDifference x y with
    | .nil => none
    | m => some (.sub m)
  termination_by v w => sizeOf v + sizeOf w
  decreasing_by
    all_goals simp_wf
    all_goals omega

/-- Modelled from the spec: patternDifference (fontra/core/changes.py, not in
the sources under review) — the lattice difference of two patterns: each
entry of the first mapping is kept (in order), diminished by the matching
entry of the second mapping, and dropped when nothing remains. -/
def patternDifference : PatMap → PatMap → PatMap
  | .nil, _ => .nil
  | .cons k v rest, b =>
    match hw : pmGet b k with
    | none => .cons k v (patternDifference rest b)
    | some w =>
      match diffVal v w with
      | none => patternDifference rest b
      | some v2 => .cons k v2 (patternDifference rest b)
  termination_by a b => sizeOf a + sizeOf b
  decreasing_by
    all_goals simp_wf
    all_goals try omega
    all_goals have h9 := pmGet_sizeOf_lt b k w hw
    all_goals omega
end

/-! ## Glyph values and the local data cache -/

/-- A component of a static glyph, referencing another glyph by name. -/
structure Component where
  name : String
  deriving DecidableEq, Repr

/-- The per-layer glyph carrying the components. -/
structure StaticGlyph where
  components : List Component
  deriving DecidableEq, Repr

/-- A named layer of a variable glyph. -/
structure Layer where
  glyph : StaticGlyph
  deriving DecidableEq, Repr

/-- An editable glyph: a mapping from layer name to layer. -/
structure VariableGlyph where
  layers : List (String × Layer)
  deriving DecidableEq, Repr

/-- Model of fonthandler._iterAllComponentNames: all component names in all
layers of a glyph. -/
def iterAllComponentNames (g : VariableGlyph) : List String :=
  (g.layers.map Prod.snd).flatMap (fun l => l.glyph.components.map (fun c => c.name))

/-- A Python value held in the local data cache: the None object, a
VariableGlyph, or any other backend datum (kept opaque). -/
inductive PyVal where
  | pynone
  | vglyph (g : VariableGlyph)
  | pydata (s : String)
  deriving DecidableEq, Repr

/-- The FontHandler localData cache: DataKey to stored Python value. -/
abbrev Cache := List (DataKey × PyVal)

/-- Python localData.get(key): the stored value, or None when absent. -/
def localDataGet (c : Cache) (k : DataKey) : PyVal :=
  (dictGet c k).getD .pynone

/-- The inner loop of FontHandler.reloadData over the sub-keys of the
"glyphs" entry: pop each ("glyphs", glyphName) cache entry. -/
def popGlyphEntries : PatMap → Cache → Cache
  | .nil, c => c
  | .cons name _ rest, c => popGlyphEntries rest (dictPop c (.glyph name))

/-- Model of the cache-invalidation part of FontHandler.reloadData (the
subsequent notification of subscribed connections does not touch the cache).
For each pattern entry: under the root key "glyphs" iterate the value and pop
each glyph entry — iterating the null sentinel raises a Python TypeError,
modelled as none — otherwise pop the bare root-key entry. -/
def reloadData : PatMap → Cache → Option Cache
  | .nil, c => some c
  | .cons rootKey v rest, c =>
    if rootKey = "glyphs" then
      match v with
      | .sentinel => none
      | .sub m => reloadData rest (popGlyphEntries m c)
    else
      reloadData rest (dictPop c (.root rootKey))

/-! ## Dependency tracker -/

/-- One of the two dependency indices: glyph name to a set of glyph names
(Python sets are modelled as lists, with membership as the set semantics). -/
abbrev DepMap := List (String × List String)

/-- The recorded set for a glyph name: dict.get(name, empty). -/
def depGetSet (m : DepMap) (k : String) : List String :=
  (dictGet m k).getD []

/-- Step 1 of FontHandler.updateGlyphDependencies: for each previously
recorded component, discard glyphName from glyphUsedBy of that component
(when that index has an entry for it). -/
def zapUsedBy (glyphName : String) : List String → DepMap → DepMap
  | [], u => u
  | c :: cs, u =>
    let u2 :=
      if (dictGet u c).isSome then
        dictSet u c ((depGetSet u c).filter (fun x => x ≠ glyphName))
      else u
    zapUsedBy glyphName cs u2

/-- Step 3 of FontHandler.updateGlyphDependencies: for each new component,
add glyphName to glyphUsedBy of that component, creating the set if absent. -/
def addUsedBy (glyphName : String) : List String → DepMap → DepMap
  | [], u => u
  | c :: cs, u =>
    let cur := depGetSet u c
    let newSet := if glyphName ∈ cur then cur else cur ++ [glyphName]
    addUsedBy glyphName cs (dictSet u c newSet)

/-- The two dependency indices held by a FontHandler. -/
structure DepState where
  glyphMadeOf : DepMap
  glyphUsedBy : DepMap
  deriving DecidableEq, Repr

/-- Model of FontHandler.updateGlyphDependencies (lines 423-436): zap the
previous used-by edges of the glyph, record its new component set (deleting
the made-of entry when the set is empty), then add the new used-by edges. -/
def updateGlyphDependencies (st : DepState) (glyphName : String)
    (glyph : VariableGlyph) : DepState :=
  let oldComponents := depGetSet st.glyphMadeOf glyphName
  let usedBy1 := zapUsedBy glyphName oldComponents st.glyphUsedBy
  let componentNames := (iterAllComponentNames glyph).dedup
  let madeOf2 :=
    if componentNames ≠ [] then dictSet st.glyphMadeOf glyphName componentNames
    else if (dictGet st.glyphMadeOf glyphName).isSome then
      dictPop st.glyphMadeOf glyphName
    else st.glyphMadeOf
  let usedBy2 := addUsedBy glyphName componentNames usedBy1
  ⟨madeOf2, usedBy2⟩

/-- The dependency-tracker symmetry invariant of the spec:
g is in glyphUsedBy of c iff c is in glyphMadeOf of g. -/
def depSym (st : DepState) : Prop :=
  ∀ g c : String, g ∈ depGetSet st.glyphUsedBy c ↔ c ∈ depGetSet st.glyphMadeOf g

/-! ## Write scheduler -/

/-- The behaviour of a writer thunk when awaited: success, or raising an
exception with a message. -/
inductive WOutcome where
  | ok
  | err (msg : String)
  deriving DecidableEq, Repr

/-- A pending write-queue entry value: (writer thunk, originating connection
or None), connections being identified by number. -/
abbrev WriteEntry := WOutcome × Option Nat

/-- The ordered write queue _dataScheduledForWriting. -/
abbrev WriteQueue := List (DataKey × WriteEntry)

/-- Python exceptions that the model distinguishes. -/
inductive PyErr where
  | typeError
  | attributeError
  | writeError (msg : String)
  deriving DecidableEq, Repr

/-- Observable events: backend writes, reloadData calls, messages and
change notifications to client proxies, and the scheduler wakeup signal. -/
inductive Event where
  | wroteToBackend (k : DataKey)
  | reloadCalled (p : PatMap)
  | messageFromServer (conn : Nat) (title : String)
  | externalChange (conn : Nat) (change : String) (isLive : Bool)
  | signalWrites
  deriving DecidableEq, Repr

/-- Model of fonthandler.popFirstItem: next(iter(d)) plus d.pop(key) — the
first entry of the dict in insertion order (none on an empty dict, where the
Python code would raise StopIteration; all callers guard on non-emptiness). -/
def popFirstItem {α β : Type} (d : List (α × β)) :
    Option ((α × β) × List (α × β)) :=
  match d with
  | [] => none
  | x :: rest => some (x, rest)

/-- The scheduler-related state of a FontHandler: the write queue (none once
the write task has terminated), the cache, and the stored scheduler error. -/
structure SchedulerState where
  dataScheduledForWriting : Option WriteQueue
  localData : Cache
  processWritesError : Option PyErr
  deriving DecidableEq, Repr

/-- Result of one handler operation: the new state, the events emitted, and
an uncaught exception if one escaped. -/
structure OpResult where
  state : SchedulerState
  events : List Event
  raised : Option PyErr
  deriving DecidableEq, Repr

/-- Model of FontHandler.scheduleDataWrite (lines 407-421).  When the write
queue has been nulled out, reload the affected key and message the caller
(attribute access on a None connection raises AttributeError); otherwise
coalesce into the queue by Python dict assignment, signalling the write task
when the queue was empty. -/
def scheduleDataWrite (st : SchedulerState) (writeKey : DataKey)
    (writeFunc : WOutcome) (connection : Option Nat) : OpResult :=
  match st.dataScheduledForWriting with
  | none =>
    match reloadData (writeKeyToPattern writeKey) st.localData with
    | none => ⟨st, [], some .typeError⟩
    | some c2 =>
      let st2 := { st with localData := c2 }
      match connection with
      | none =>
        ⟨st2, [.reloadCalled (writeKeyToPattern writeKey)], some .attributeError⟩
      | some cid =>
        ⟨st2,
         [.reloadCalled (writeKeyToPattern writeKey),
          .messageFromServer cid "The data could not be saved."], none⟩
  | some q =>
    let shouldSignal := q.isEmpty
    let q2 := dictSet q writeKey (writeFunc, connection)
    ⟨{ st with dataScheduledForWriting := some q2 },
     if shouldSignal then [.signalWrites] else [], none⟩

/-- Result of one write cycle over the queue. -/
structure CycleResult where
  cache : Cache
  events : List Event
  error : Option PyErr
  deriving DecidableEq, Repr

/-- Model of FontHandler._processWritesOneCycle (lines 115-139): repeatedly
pop the first queue entry and await its writer thunk.  On failure, reload the
affected key; with an originating connection send it a revert message and
continue, otherwise re-raise. -/
def processWritesOneCycle : WriteQueue → Cache → CycleResult
  | [], c => ⟨c, [], none⟩
  | (writeKey, (writeFunc, connection)) :: rest, c =>
    match writeFunc with
    | .ok =>
      let r := processWritesOneCycle rest c
      ⟨r.cache, .wroteToBackend writeKey :: r.events, r.error⟩
    | .err m =>
      match reloadData (writeKeyToPattern writeKey) c with
      | none => ⟨c, [], some .typeError⟩
      | some c2 =>
        match connection with
        | some cid =>
          let r := processWritesOneCycle rest c2
          ⟨r.cache,
           .reloadCalled (writeKeyToPattern writeKey) ::
             .messageFromServer cid "The data could not be saved due to an error."
             :: r.events,
           r.error⟩
        | none =>
          ⟨c2, [.reloadCalled (writeKeyToPattern writeKey)], some (.writeError m)⟩

/-- Model of one wakeup of FontHandler.processWrites (lines 103-113) together
with the _processWritesTaskDone callback (lines 92-94): run one cycle; if a
writer exception escaped, store it as the scheduler error, let the task die,
and null out the queue reference. -/
def runProcessWrites (st : SchedulerState) : SchedulerState × List Event :=
  match st.dataScheduledForWriting with
  | none => (st, [])
  | some q =>
    let r := processWritesOneCycle q st.localData
    match r.error with
    | none =>
      ({ st with dataScheduledForWriting := some [], localData := r.cache },
       r.events)
    | some e =>
      ({ dataScheduledForWriting := none, localData := r.cache,
         processWritesError := some e }, r.events)

/-- Model of FontHandler.finishWriting (lines 96-101): raise the stored
scheduler error if there is one. -/
def finishWriting (st : SchedulerState) : Except PyErr Unit :=
  match st.processWritesError with
  | some e => .error e
  | none => .ok ()

/-! ## Subscription registry and broadcast engine -/

/-- Reserved client-data key of the committed-tier subscription pattern. -/
def CHANGES_PATTERN_KEY : String := "changes-match-pattern"

/-- Reserved client-data key of the live-tier subscription pattern. -/
def LIVE_CHANGES_PATTERN_KEY : String := "live-changes-match-pattern"

/-- Per-client data: clientUUID (a number here) to a dict of stored values
(only the two subscription patterns matter to the claims). -/
abbrev ClientData := List (Nat × List (String × PatMap))

/-- Model of FontHandler._getClientData with default empty pattern. -/
def getClientData (cd : ClientData) (conn : Nat) (key : String) : PatMap :=
  (dictGet ((dictGet cd conn).getD []) key).getD .nil

/-- Model of FontHandler._setClientData. -/
def setClientData (cd : ClientData) (conn : Nat) (key : String)
    (p : PatMap) : ClientData :=
  dictSet cd conn (dictSet ((dictGet cd conn).getD []) key p)

/-- Model of FontHandler._adjustMatchPattern (lines 259-262). -/
def adjustMatchPattern (cd : ClientData) (func : PatMap → PatMap → PatMap)
    (pattern : PatMap) (wantLiveChanges : Bool) (conn : Nat) : ClientData :=
  let key := if wantLiveChanges then LIVE_CHANGES_PATTERN_KEY
             else CHANGES_PATTERN_KEY
  let matchPattern := getClientData cd conn key
  setClientData cd conn key (func matchPattern pattern)

/-- Model of FontHandler.subscribeChanges: store grows by pattern union. -/
def subscribeChanges (cd : ClientData) (pattern : PatMap)
    (wantLiveChanges : Bool) (conn : Nat) : ClientData :=
  adjustMatchPattern cd patternUnion pattern wantLiveChanges conn

/-- Model of FontHandler.unsubscribeChanges: store shrinks by pattern
difference. -/
def unsubscribeChanges (cd : ClientData) (pattern : PatMap)
    (wantLiveChanges : Bool) (conn : Nat) : ClientData :=
  adjustMatchPattern cd patternDifference pattern wantLiveChanges conn

/-- Model of FontHandler.broadcastChange (lines 279-298).  Changes are kept
opaque (a string) and matchChangePattern of the change algebra is a black-box
parameter.  Returns the fire-and-forget proxy.externalChange events, one per
selected connection. -/
def broadcastChange (matchChangePattern : String → PatMap → Bool)
    (connections : List Nat) (cd : ClientData) (change : String)
    (sourceConnection : Option Nat) (isLiveChange : Bool) : List Event :=
  let matchPatternKeys :=
    if isLiveChange then [LIVE_CHANGES_PATTERN_KEY]
    else [LIVE_CHANGES_PATTERN_KEY, CHANGES_PATTERN_KEY]
  let targets := connections.filter (fun conn =>
    decide (some conn ≠ sourceConnection) &&
      matchPatternKeys.any
        (fun k => matchChangePattern change (getClientData cd conn k)))
  targets.map (fun conn => .externalChange conn change isLiveChange)

/-! ## Edit coordinator -/

/-- Model of the DictSetDelTracker wrapper (lines 519-537): the glyph mapping
of a sparse root object with its newKeys / deletedKeys tracking sets. -/
structure DictSetDelTracker where
  data : List (String × PyVal)
  newKeys : List String
  deletedKeys : List String
  deriving DecidableEq, Repr

/-- The sparse root object produced by _prepareRootObject AFTER applyChange
has run: the glyph tracker, the other root attributes, and the set of
attribute names the change assigned (change application itself belongs to
the external change algebra and is kept abstract). -/
structure RootObject where
  glyphs : DictSetDelTracker
  attrs : List (String × PyVal)
  assignedAttributeNames : List String
  deriving DecidableEq, Repr

/-- A scheduleDataWrite request issued by _updateLocalData, recording the
writer thunk bound at enqueue time.  Payloads are snapshot values here
(deepcopy on immutable model values is the identity); the aliasing content of
the deep-copy discipline is modelled separately with an explicit heap. -/
inductive WriteReq where
  | putGlyph (name : String) (payload : PyVal) (codepoints : List Nat)
      (conn : Option Nat)
  | deleteGlyph (name : String) (conn : Option Nat)
  | putData (key : String) (payload : PyVal) (conn : Option Nat)
  deriving DecidableEq, Repr

/-- The glyphs branch of _updateLocalData, first loop (lines 372-385): for
each touched glyph name in sorted order, update the cache when newly
assigned, and when writes are enabled schedule putGlyph with the value and
its codepoints. -/
def processGlyphsTouched (glyphSet : DictSetDelTracker)
    (glyphMap : List (String × List Nat)) (conn : Option Nat)
    (writeToBackEnd : Bool) :
    List String → Cache × List WriteReq → Cache × List WriteReq
  | [], acc => acc
  | glyphName :: rest, (c, w) =>
    let value := (dictGet glyphSet.data glyphName).getD .pynone
    let c2 := if glyphName ∈ glyphSet.newKeys then
        dictSet c (.glyph glyphName) value
      else c
    let w2 := if writeToBackEnd then
        w ++ [WriteReq.putGlyph glyphName value
                ((dictGet glyphMap glyphName).getD []) conn]
      else w
    processGlyphsTouched glyphSet glyphMap conn writeToBackEnd rest (c2, w2)

/-- The glyphs branch of _updateLocalData, second loop (lines 386-395): for
each deleted glyph name in sorted order, pop the cache entry, and when writes
are enabled schedule deleteGlyph. -/
def processGlyphsDeleted (conn : Option Nat) (writeToBackEnd : Bool) :
    List String → Cache × List WriteReq → Cache × List WriteReq
  | [], acc => acc
  | glyphName :: rest, (c, w) =>
    let c2 := dictPop c (.glyph glyphName)
    let w2 := if writeToBackEnd then
        w ++ [WriteReq.deleteGlyph glyphName conn]
      else w
    processGlyphsDeleted conn writeToBackEnd rest (c2, w2)

/-- One iteration of the root-key loop of _updateLocalData (lines 368-405).
For the "glyphs" root the two glyph loops run; for any other root key the
cache is updated when the attribute was assigned, and when writes are enabled
putData is scheduled with the (deep-copied) cache value.  (When the cache has
no entry for such a root key, Python indexing would raise KeyError; the model
reads None, an unreachable case because touched roots were materialised by
getData.) -/
def processRootKey (ro : RootObject) (conn : Option Nat)
    (writeToBackEnd : Bool) (glyphMap : List (String × List Nat))
    (acc : Cache × List WriteReq) (rootKey : String) :
    Cache × List WriteReq :=
  if rootKey = "glyphs" then
    let acc1 := processGlyphsTouched ro.glyphs glyphMap conn writeToBackEnd
      (sortedStrings (dictKeys ro.glyphs.data)) acc
    processGlyphsDeleted conn writeToBackEnd
      (sortedStrings ro.glyphs.deletedKeys) acc1
  else
    let c := acc.1
    let w := acc.2
    let c2 := if rootKey ∈ ro.assignedAttributeNames then
        dictSet c (.root rootKey) ((dictGet ro.attrs rootKey).getD .pynone)
      else c
    let w2 := if writeToBackEnd then
        w ++ [WriteReq.putData rootKey (localDataGet c2 (.root rootKey)) conn]
      else w
    (c2, w2)

/-- Model of FontHandler._updateLocalData (lines 362-405): fold the root-key
loop over the touched root keys followed by the sorted assigned attribute
names, returning the updated cache and the scheduleDataWrite requests in
order. -/
def updateLocalData (rootKeys : List String) (ro : RootObject)
    (conn : Option Nat) (writeToBackEnd : Bool) (cache : Cache)
    (glyphMap : List (String × List Nat)) : Cache × List WriteReq :=
  (rootKeys ++ sortedStrings ro.assignedAttributeNames).foldl
    (processRootKey ro conn writeToBackEnd glyphMap) (cache, [])

/-- Model of FontHandler._updateLocalDataAndWriteToBackend (lines 306-327)
after change application: writes are enabled exactly when the change is not
external and the handler is not read-only. -/
def updateLocalDataAndWriteToBackend (readOnly : Bool)
    (isExternalChange : Bool) (rootKeys : List String) (ro : RootObject)
    (conn : Option Nat) (cache : Cache)
    (glyphMap : List (String × List Nat)) : Cache × List WriteReq :=
  updateLocalData rootKeys ro conn (!isExternalChange && !readOnly) cache
    glyphMap

/-- Model of FontHandler.isReadOnly (lines 151-153). -/
def isReadOnly (readOnly dummyEditor : Bool) : Bool :=
  readOnly && !dummyEditor

/-- Model of FontHandler.editFinal (lines 268-277): update local data with
writes enabled for a non-external change, then broadcast on the committed
tier when requested. -/
def editFinal (matchChangePattern : String → PatMap → Bool)
    (connections : List Nat) (cd : ClientData) (readOnly : Bool)
    (rootKeys : List String) (ro : RootObject) (conn : Nat) (cache : Cache)
    (glyphMap : List (String × List Nat)) (finalChange : String)
    (broadcast : Bool) : (Cache × List WriteReq) × List Event :=
  let r := updateLocalDataAndWriteToBackend readOnly false rootKeys ro
    (some conn) cache glyphMap
  let evs := if broadcast then
      broadcastChange matchChangePattern connections cd finalChange
        (some conn) false
    else []
  (r, evs)

/-! ## Heap model for the deep-copy discipline

Python values are references into a mutable heap.  A cached glyph value is an
object cell whose fields are references to further cells; a later edit
mutates cells in place.  copy.deepcopy clones the object AND its fields into
fresh cells, so an enqueued payload shares no cell with the cached value. -/

/-- A heap cell: an object with field references, or a leaf datum. -/
inductive Cell where
  | obj (fields : List Nat)
  | leaf (data : String)
  deriving DecidableEq, Repr

/-- A mutable heap: cells addressed by number, plus the next fresh address. -/
structure Heap where
  cells : List (Nat × Cell)
  next : Nat
  deriving DecidableEq, Repr

/-- Read a cell. -/
def hget (h : Heap) (a : Nat) : Option Cell := dictGet h.cells a

/-- Allocate a fresh cell, returning its address. -/
def halloc (h : Heap) (c : Cell) : Nat × Heap :=
  (h.next, ⟨h.cells ++ [(h.next, c)], h.next + 1⟩)

/-- Mutate the cell at an address in place. -/
def hset (h : Heap) (a : Nat) (c : Cell) : Heap :=
  ⟨dictSet h.cells a c, h.next⟩

/-- Heap well-formedness: every allocated address is below next. -/
def Heap.wf (h : Heap) : Prop := ∀ p ∈ h.cells, p.1 < h.next

/-- Clone each field cell into a fresh cell, keeping field order. -/
def copyFields : List Nat → List Nat × Heap → List Nat × Heap
  | [], acc => acc
  | f :: fs, (done, h) =>
    let cell := (hget h f).getD (.leaf "")
    let p := halloc h cell
    copyFields fs (done ++ [p.1], p.2)

/-- Model of copy.deepcopy on a (two-level) glyph value: clone the fields,
then clone the object pointing at the cloned fields. -/
def deepcopy (h : Heap) (r : Nat) : Nat × Heap :=
  match hget h r with
  | some (.obj fs) =>
    let p := copyFields fs ([], h)
    halloc p.2 (.obj p.1)
  | some (.leaf d) => halloc h (.leaf d)
  | none => halloc h (.leaf "")

/-- The full dereferenced value of an object: its fields' cells in order
(none marks a dangling reference). -/
def derefObj (h : Heap) (r : Nat) : Option (List (Option Cell)) :=
  match hget h r with
  | some (.obj fs) => some (fs.map (fun f => hget h f))
  | _ => none

/-- The writer thunk built at enqueue time for one glyph: the bound
arguments of functools.partial(putGlyph, name, deepcopy(value), codepoints).
-/
structure PutGlyphThunk where
  name : String
  payloadRef : Nat
  codepoints : List Nat
  deriving DecidableEq, Repr

/-- Model of _updateLocalData lines 379-385 for one glyph with writes
enabled: the writer thunk binds a deep copy of the glyph value taken at
enqueue time. -/
def buildPutGlyphThunk (h : Heap) (glyphName : String) (valueRef : Nat)
    (codepoints : List Nat) : PutGlyphThunk × Heap :=
  let p := deepcopy h valueRef
  (⟨glyphName, p.1, codepoints⟩, p.2)

/-! ## getGlyph and the backend -/

/-- The state touched by FontHandler.getGlyph: the cache, the dependency
tracker, and a trace of backend.getGlyph calls. -/
structure GlyphAccessState where
  localData : Cache
  deps : DepState
  backendGetGlyphCalls : List String
  deriving DecidableEq, Repr

/-- Model of FontHandler._getGlyphFromBackend (lines 175-179): query the
backend; on a non-None result update the dependency tracker. -/
def getGlyphFromBackend (backend : String → Option VariableGlyph)
    (st : GlyphAccessState) (glyphName : String) :
    Option VariableGlyph × GlyphAccessState :=
  let st1 := { st with
    backendGetGlyphCalls := st.backendGetGlyphCalls ++ [glyphName] }
  match backend glyphName with
  | some g =>
    (some g, { st1 with deps := updateGlyphDependencies st1.deps glyphName g })
  | none => (none, st1)

/-- Model of FontHandler.getGlyph (lines 162-170): a cached non-None value is
returned directly; otherwise the backend is queried and the result — the
None object included — is stored in the cache and returned. -/
def getGlyph (backend : String → Option VariableGlyph)
    (st : GlyphAccessState) (glyphName : String) :
    PyVal × GlyphAccessState :=
  match localDataGet st.localData (.glyph glyphName) with
  | .pynone =>
    let r := getGlyphFromBackend backend st glyphName
    let stored := match r.1 with
      | some g => PyVal.vglyph g
      | none => PyVal.pynone
    (stored,
     { r.2 with localData := dictSet r.2.localData (.glyph glyphName) stored })
  | v => (v, st)

/-! ## Helper lemmas about patterns and reloadData -/

theorem pmGet_mem_pmKeys :
    ∀ (m : PatMap) (k : String) (v : PatVal), pmGet m k = some v →
      k ∈ pmKeys m
  | .nil, k, v, h => by simp [pmGet] at h
  | .cons a w rest, k, v, h => by
    simp only [pmGet] at h
    by_cases hk : k = a
    · simp [pmKeys, hk]
    · simp only [if_neg hk] at h
      simp [pmKeys, pmGet_mem_pmKeys rest k v h]

theorem pmGet_entry_mem :
    ∀ (m : PatMap) (k : String) (v : PatVal), pmGet m k = some v →
      ∃ m1 m2, m = pmAppend m1 (.cons k v m2)
  | .nil, k, v, h => by simp [pmGet] at h
  | .cons a w rest, k, v, h => by
    simp only [pmGet] at h
    by_cases hk : k = a
    · refine ⟨.nil, rest, ?_⟩
      simp only [if_pos hk] at h
      cases h
      simp [pmAppend, hk]
    · simp only [if_neg hk] at h
      obtain ⟨m1, m2, hm⟩ := pmGet_entry_mem rest k v h
      exact ⟨.cons a w m1, m2, by simp [pmAppend, hm]⟩

/-- Membership of an entry in the nested pattern mapping walk used by
reloadData: the entry list of a pattern mapping. -/
def pmEntries : PatMap → List (String × PatVal)
  | .nil => []
  | .cons k v rest => (k, v) :: pmEntries rest

theorem pmGet_entry_mem_entries :
    ∀ (m : PatMap) (k : String) (v : PatVal), pmGet m k = some v →
      (k, v) ∈ pmEntries m
  | .nil, k, v, h => by simp [pmGet] at h
  | .cons a w rest, k, v, h => by
    simp only [pmGet] at h
    by_cases hk : k = a
    · simp only [if_pos hk] at h
      cases h
      simp [pmEntries, hk]
    · simp only [if_neg hk] at h
      simp [pmEntries, pmGet_entry_mem_entries rest k v h]

theorem popGlyphEntries_preserves_none :
    ∀ (m : PatMap) (c : Cache) (k : DataKey), dictGet c k = none →
      dictGet (popGlyphEntries m c) k = none
  | .nil, c, k, h => h
  | .cons name v rest, c, k, h => by
    simp only [popGlyphEntries]
    apply popGlyphEntries_preserves_none rest
    by_cases hk : k = DataKey.glyph name
    · subst hk
      exact dictGet_dictPop_self c _
    · rw [dictGet_dictPop_ne c _ k hk]
      exact h

theorem popGlyphEntries_pops :
    ∀ (m : PatMap) (c : Cache) (n : String), n ∈ pmKeys m →
      dictGet (popGlyphEntries m c) (.glyph n) = none
  | .nil, c, n, h => by simp [pmKeys] at h
  | .cons name v rest, c, n, h => by
    simp only [popGlyphEntries]
    by_cases hn : n = name
    · apply popGlyphEntries_preserves_none
      subst hn
      exact dictGet_dictPop_self c _
    · have : n ∈ pmKeys rest := by
        simpa [pmKeys, hn] using h
      exact popGlyphEntries_pops rest _ n this

theorem reloadData_preserves_none :
    ∀ (P : PatMap) (c : Cache) (c2 : Cache) (k : DataKey),
      reloadData P c = some c2 → dictGet c k = none → dictGet c2 k = none
  | .nil, c, c2, k, h, hk => by
    simp only [reloadData] at h
    cases h
    exact hk
  | .cons rootKey v rest, c, c2, k, h, hk => by
    simp only [reloadData] at h
    split at h
    · match v, h with
      | .sub m, h =>
        exact reloadData_preserves_none rest _ c2 k h
          (popGlyphEntries_preserves_none m c k hk)
    · apply reloadData_preserves_none rest _ c2 k h
      by_cases hkr : k = DataKey.root rootKey
      · rw [hkr]
        exact dictGet_dictPop_self c _
      · rw [dictGet_dictPop_ne c _ k hkr]
        exact hk

/-- reloadData on the pattern of a valid write key succeeds and removes
exactly that key's cache entry. -/
theorem reloadData_writeKeyToPattern (k : DataKey) (c : Cache)
    (hk : k ≠ .root "glyphs") :
    ∃ c2, reloadData (writeKeyToPattern k) c = some c2 ∧
      dictGet c2 k = none ∧
      ∀ k2, k2 ≠ k → dictGet c2 k2 = dictGet c k2 := by
  match k with
  | .root s =>
    have hs : ¬ s = "glyphs" := by
      intro h
      exact hk (by rw [h])
    refine ⟨dictPop c (.root s), ?_, ?_, ?_⟩
    · simp [writeKeyToPattern, patternFromPath, reloadData, hs]
    · exact dictGet_dictPop_self c _
    · intro k2 h2
      exact dictGet_dictPop_ne c _ k2 h2
  | .glyph n =>
    refine ⟨dictPop c (.glyph n), ?_, ?_, ?_⟩
    · simp [writeKeyToPattern, patternFromPath, reloadData, popGlyphEntries]
    · exact dictGet_dictPop_self c _
    · intro k2 h2
      exact dictGet_dictPop_ne c _ k2 h2

/-! ## C1: write-queue coalescing and FIFO order -/

/-- C1: the write queue holds at most one pending entry per DataKey (key
list stays duplicate-free); scheduleDataWrite on a pending key replaces its
writer thunk and originating connection in place without changing the key's
position, a new key is appended at the end, all other entries are untouched,
and popFirstItem always yields the first entry of the queue in insertion
order (FIFO by first enqueue). -/
theorem scheduleDataWrite_coalesces_fifo
    (st : SchedulerState) (q : WriteQueue) (k : DataKey) (f : WOutcome)
    (conn : Option Nat)
    (hq : st.dataScheduledForWriting = some q)
    (hnodup : (dictKeys q).Nodup) :
    ∃ q2,
      (scheduleDataWrite st k f conn).state.dataScheduledForWriting = some q2 ∧
      q2 = dictSet q k (f, conn) ∧
      (dictKeys q2).Nodup ∧
      dictGet q2 k = some (f, conn) ∧
      (k ∈ dictKeys q → dictKeys q2 = dictKeys q) ∧
      (k ∉ dictKeys q → dictKeys q2 = dictKeys q ++ [k]) ∧
      (∀ k2, k2 ≠ k → dictGet q2 k2 = dictGet q k2) ∧
      (∀ e rest, popFirstItem q2 = some (e, rest) → q2 = e :: rest) := by
  refine ⟨dictSet q k (f, conn), ?_, rfl, ?_, ?_, ?_, ?_, ?_, ?_⟩
  · simp [scheduleDataWrite, hq]
  · exact dictKeys_nodup_dictSet q k (f, conn) hnodup
  · exact dictGet_dictSet_self q k (f, conn)
  · intro h
    exact dictKeys_dictSet_mem k (f, conn) q h
  · intro h
    exact dictKeys_dictSet_not_mem k (f, conn) q h
  · intro k2 h2
    exact dictGet_dictSet_ne q k k2 (f, conn) h2
  · intro e rest h
    match hq2 : dictSet q k (f, conn), h with
    | x :: xs, h =>
      simp only [popFirstItem] at h
      cases h
      rfl

/-- A concrete one-entry write queue for the C1 witness. -/
def exampleQueue : WriteQueue := [(DataKey.root "axes", (WOutcome.ok, none))]

/-- A concrete scheduler state holding exampleQueue. -/
def exampleSchedState : SchedulerState := ⟨some exampleQueue, [], none⟩

theorem scheduleDataWrite_coalesces_fifo_witness :
    ∃ q2,
      (scheduleDataWrite exampleSchedState
        (DataKey.glyph "A") WOutcome.ok (some 1)).state.dataScheduledForWriting
          = some q2 ∧
      q2 = dictSet exampleQueue (DataKey.glyph "A") (WOutcome.ok, some 1) ∧
      (dictKeys q2).Nodup ∧
      dictGet q2 (DataKey.glyph "A") = some (WOutcome.ok, some 1) ∧
      (DataKey.glyph "A" ∈ dictKeys exampleQueue →
        dictKeys q2 = dictKeys exampleQueue) ∧
      (DataKey.glyph "A" ∉ dictKeys exampleQueue →
        dictKeys q2 = dictKeys exampleQueue ++ [DataKey.glyph "A"]) ∧
      (∀ k2, k2 ≠ DataKey.glyph "A" →
        dictGet q2 k2 = dictGet exampleQueue k2) ∧
      (∀ e rest, popFirstItem q2 = some (e, rest) → q2 = e :: rest) :=
  scheduleDataWrite_coalesces_fifo exampleSchedState exampleQueue
    (DataKey.glyph "A") WOutcome.ok (some 1) rfl (by decide)

/-! ## C4: broadcast target selection -/

/-- C4: broadcastChange consults only the live-tier pattern when the change
is live and both tiers otherwise, and schedules a fire-and-forget
proxy.externalChange(change, isLive) call exactly for the connections that
differ from the source and have a consulted pattern matching the change. -/
theorem mem_externalChange_map_filter (l : List Nat) (p : Nat → Bool)
    (change : String) (il : Bool) (c : Nat) :
    Event.externalChange c change il ∈
        (l.filter p).map (fun conn => Event.externalChange conn change il) ↔
      c ∈ l ∧ p c = true := by
  simp only [List.mem_map, List.mem_filter]
  constructor
  · rintro ⟨conn, ⟨hc, hp⟩, heq⟩
    cases heq
    exact ⟨hc, hp⟩
  · rintro ⟨hc, hp⟩
    exact ⟨c, ⟨hc, hp⟩, rfl⟩

theorem broadcastChange_targets
    (matchCP : String → PatMap → Bool) (connections : List Nat)
    (cd : ClientData) (change : String) (source : Option Nat)
    (isLive : Bool) (c : Nat) :
    Event.externalChange c change isLive ∈
        broadcastChange matchCP connections cd change source isLive ↔
      c ∈ connections ∧ some c ≠ source ∧
        ((isLive = true ∧
            matchCP change (getClientData cd c LIVE_CHANGES_PATTERN_KEY) = true) ∨
         (isLive = false ∧
            (matchCP change (getClientData cd c LIVE_CHANGES_PATTERN_KEY) = true ∨
             matchCP change (getClientData cd c CHANGES_PATTERN_KEY) = true))) := by
  rw [broadcastChange, mem_externalChange_map_filter]
  cases isLive
  · simp only [Bool.false_eq_true, if_false, List.any_cons, List.any_nil,
      Bool.or_false, Bool.and_eq_true, decide_eq_true_eq, Bool.or_eq_true,
      and_congr_right_iff]
    intro _
    tauto
  · simp only [if_true, List.any_cons, List.any_nil, Bool.or_false,
      Bool.and_eq_true, decide_eq_true_eq, Bool.or_eq_true, and_congr_right_iff]
    intro _
    tauto

/-! ## C10: backend-absent glyphs are not effectively cached -/

/-- C10: when the backend reports a glyph as absent and the cache has no
effective entry for it, getGlyph returns the None value, records no
dependency edges, stores a None value indistinguishable from a cache miss,
and every subsequent getGlyph for that name queries the backend again. -/
theorem getGlyph_absent_backend
    (backend : String → Option VariableGlyph) (st : GlyphAccessState)
    (glyphName : String)
    (hb : backend glyphName = none)
    (hc : localDataGet st.localData (.glyph glyphName) = .pynone) :
    (getGlyph backend st glyphName).1 = .pynone ∧
    (getGlyph backend st glyphName).2.deps = st.deps ∧
    (getGlyph backend st glyphName).2.backendGetGlyphCalls =
      st.backendGetGlyphCalls ++ [glyphName] ∧
    localDataGet (getGlyph backend st glyphName).2.localData
      (.glyph glyphName) = .pynone ∧
    (getGlyph backend (getGlyph backend st glyphName).2 glyphName).1
      = .pynone ∧
    (getGlyph backend
        (getGlyph backend st glyphName).2 glyphName).2.backendGetGlyphCalls =
      st.backendGetGlyphCalls ++ [glyphName, glyphName] := by
  have h1 : getGlyph backend st glyphName =
      (.pynone,
       { st with
          backendGetGlyphCalls := st.backendGetGlyphCalls ++ [glyphName],
          localData := dictSet st.localData (.glyph glyphName) .pynone }) := by
    rw [getGlyph, hc]
    simp [getGlyphFromBackend, hb]
  have hc2 : localDataGet
      (dictSet st.localData (.glyph glyphName) PyVal.pynone)
      (.glyph glyphName) = .pynone := by
    simp [localDataGet, dictGet_dictSet_self]
  refine ⟨by rw [h1], by rw [h1], by rw [h1], by rw [h1]; exact hc2, ?_, ?_⟩
  · rw [h1, getGlyph]
    simp only [hc2]
    simp [getGlyphFromBackend, hb]
  · rw [h1, getGlyph]
    simp only [hc2]
    simp [getGlyphFromBackend, hb]

theorem getGlyph_absent_backend_witness :
    ((getGlyph (fun _ => none) ⟨[], ⟨[], []⟩, []⟩ "A").1 = .pynone ∧
     (getGlyph (fun _ => none) ⟨[], ⟨[], []⟩, []⟩ "A").2.deps = ⟨[], []⟩ ∧
     (getGlyph (fun _ => none) ⟨[], ⟨[], []⟩, []⟩ "A").2.backendGetGlyphCalls
       = [] ++ ["A"] ∧
     localDataGet
       (getGlyph (fun _ => none) ⟨[], ⟨[], []⟩, []⟩ "A").2.localData
       (.glyph "A") = .pynone ∧
     (getGlyph (fun _ => none)
       (getGlyph (fun _ => none) ⟨[], ⟨[], []⟩, []⟩ "A").2 "A").1 = .pynone ∧
     (getGlyph (fun _ => none)
         (getGlyph (fun _ => none) ⟨[], ⟨[], []⟩, []⟩ "A").2
         "A").2.backendGetGlyphCalls = [] ++ ["A", "A"]) :=
  getGlyph_absent_backend (fun _ => none) ⟨[], ⟨[], []⟩, []⟩ "A" rfl rfl

/-! ## C6: writes scheduled after scheduler shutdown -/

/-- C6 (amended): after the write-scheduler task has terminated (queue
reference nulled), scheduleDataWrite with a non-None connection reloads the
affected key's pattern (dropping its cache entry), notifies the caller that
persistence is unavailable, enqueues nothing and does not restart the
scheduler; with connection None the reload still happens and nothing is
enqueued or restarted, but the notification is replaced by an uncaught
AttributeError. -/
theorem scheduleDataWrite_after_shutdown
    (st : SchedulerState) (k : DataKey) (f : WOutcome) (cid : Nat)
    (hq : st.dataScheduledForWriting = none)
    (hk : k ≠ .root "glyphs") :
    ∃ c2, reloadData (writeKeyToPattern k) st.localData = some c2 ∧
      dictGet c2 k = none ∧
      scheduleDataWrite st k f (some cid) =
        ⟨{ st with localData := c2 },
         [.reloadCalled (writeKeyToPattern k),
          .messageFromServer cid "The data could not be saved."], none⟩ ∧
      (scheduleDataWrite st k f (some cid)).state.dataScheduledForWriting
        = none := by
  obtain ⟨c2, hr, hnone, _⟩ :=
    reloadData_writeKeyToPattern k st.localData hk
  have h3 : scheduleDataWrite st k f (some cid) =
      ⟨{ st with localData := c2 },
       [.reloadCalled (writeKeyToPattern k),
        .messageFromServer cid "The data could not be saved."], none⟩ := by
    simp only [scheduleDataWrite, hq, hr]
  refine ⟨c2, hr, hnone, h3, ?_⟩
  rw [h3]
  exact hq

theorem scheduleDataWrite_after_shutdown_witness :
    ∃ c2,
      reloadData (writeKeyToPattern (DataKey.glyph "A"))
        [(DataKey.glyph "A", PyVal.pynone)] = some c2 ∧
      dictGet c2 (DataKey.glyph "A") = none ∧
      scheduleDataWrite ⟨none, [(DataKey.glyph "A", PyVal.pynone)], none⟩
          (DataKey.glyph "A") WOutcome.ok (some 7) =
        ⟨{ (⟨none, [(DataKey.glyph "A", PyVal.pynone)], none⟩ : SchedulerState)
            with localData := c2 },
         [.reloadCalled (writeKeyToPattern (DataKey.glyph "A")),
          .messageFromServer 7 "The data could not be saved."], none⟩ ∧
      (scheduleDataWrite ⟨none, [(DataKey.glyph "A", PyVal.pynone)], none⟩
          (DataKey.glyph "A") WOutcome.ok
          (some 7)).state.dataScheduledForWriting = none :=
  scheduleDataWrite_after_shutdown
    ⟨none, [(DataKey.glyph "A", PyVal.pynone)], none⟩
    (DataKey.glyph "A") WOutcome.ok 7 rfl (by decide)

/-! ## C5: reloadData clears the cache entries the pattern contains -/

theorem reloadData_spec :
    ∀ (P : PatMap) (c : Cache),
      (∀ v, ("glyphs", v) ∈ pmEntries P → v ≠ .sentinel) →
      ∃ c2, reloadData P c = some c2 ∧
        (∀ k, dictGet c k = none → dictGet c2 k = none) ∧
        (∀ s, s ≠ "glyphs" → s ∈ pmKeys P → dictGet c2 (.root s) = none) ∧
        (∀ n m2, ("glyphs", PatVal.sub m2) ∈ pmEntries P → n ∈ pmKeys m2 →
          dictGet c2 (.glyph n) = none)
  | .nil, c, _ => by
    refine ⟨c, by simp [reloadData], fun k h => h, ?_, ?_⟩
    · intro s _ hs
      simp [pmKeys] at hs
    · intro n m2 hm
      simp [pmEntries] at hm
  | .cons rootKey v rest, c, hsent => by
    by_cases hroot : rootKey = "glyphs"
    · subst hroot
      have hv : v ≠ .sentinel := hsent v (by simp [pmEntries])
      cases v with
      | sentinel => exact absurd rfl hv
      | sub m2 =>
        obtain ⟨c2, hrec, hpres, hroots, hglyphs⟩ :=
          reloadData_spec rest (popGlyphEntries m2 c)
            (fun w hw => hsent w (by simp [pmEntries, hw]))
        refine ⟨c2, ?_, ?_, ?_, ?_⟩
        · simp only [reloadData, if_pos]
          exact hrec
        · intro k h
          exact hpres k (popGlyphEntries_preserves_none m2 c k h)
        · intro s hs hmem
          apply hroots s hs
          simpa [pmKeys, hs] using hmem
        · intro n m3 hm hn
          rcases (by simpa [pmEntries] using hm :
              ("glyphs", PatVal.sub m3) = ("glyphs", PatVal.sub m2) ∨
                ("glyphs", PatVal.sub m3) ∈ pmEntries rest) with h1 | h1
          · have : m3 = m2 := by
              injection h1 with _ h2
              injection h2
            subst this
            exact hpres _ (popGlyphEntries_pops _ c n hn)
          · exact hglyphs n m3 h1 hn
    · obtain ⟨c2, hrec, hpres, hroots, hglyphs⟩ :=
        reloadData_spec rest (dictPop c (.root rootKey))
          (fun w hw => hsent w (by simp [pmEntries, hw]))
      refine ⟨c2, ?_, ?_, ?_, ?_⟩
      · simp only [reloadData, if_neg hroot]
        exact hrec
      · intro k h
        apply hpres k
        by_cases hk : k = DataKey.root rootKey
        · subst hk
          exact dictGet_dictPop_self c _
        · rw [dictGet_dictPop_ne c _ k hk]
          exact h
      · intro s hs hmem
        rcases (by simpa [pmKeys] using hmem :
            s = rootKey ∨ s ∈ pmKeys rest) with h1 | h1
        · subst h1
          exact hpres _ (dictGet_dictPop_self c _)
        · exact hroots s hs h1
      · intro n m3 hm hn
        rcases (by simpa [pmEntries] using hm :
            ("glyphs", PatVal.sub m3) = (rootKey, v) ∨
              ("glyphs", PatVal.sub m3) ∈ pmEntries rest) with h1 | h1
        · exact absurd (by injection h1 with h2 _; exact h2.symm) hroot
        · exact hglyphs n m3 h1 hn

/-- C5 (amended): for every pattern P that does not map the root key
"glyphs" directly to the null sentinel, reloadData(P) completes and
afterwards the cache contains no entry for any DataKey whose path lies in P
(a pattern contains a path iff walking the path terminates at a sentinel or
an empty mapping), for any cache that — as always in a run — holds no bare
"glyphs" root entry.  When P maps "glyphs" directly to the sentinel the code
instead raises TypeError iterating None. -/
theorem reloadData_clears_contained (P : PatMap) (c : Cache)
    (hsent : ∀ v, ("glyphs", v) ∈ pmEntries P → v ≠ .sentinel)
    (hcache : ∀ p ∈ c, p.1 ≠ DataKey.root "glyphs") :
    ∃ c2, reloadData P c = some c2 ∧
      ∀ k : DataKey, containsPath P k.path = true → dictGet c2 k = none := by
  obtain ⟨c2, hrec, hpres, hroots, hglyphs⟩ := reloadData_spec P c hsent
  refine ⟨c2, hrec, ?_⟩
  intro k hk
  match k with
  | .root s =>
    simp only [DataKey.path, containsPath] at hk
    cases hg : pmGet P s with
    | none =>
      simp [hg] at hk
    | some v =>
      by_cases hs : s = "glyphs"
      · subst hs
        have hnone : dictGet c (.root "glyphs") = none := by
          rw [dictGet_eq_none_iff]
          intro hmem
          simp only [dictKeys, List.mem_map] at hmem
          obtain ⟨p, hp, hpk⟩ := hmem
          exact hcache p hp hpk
        exact hpres _ hnone
      · exact hroots s hs (pmGet_mem_pmKeys P s v hg)
  | .glyph n =>
    simp only [DataKey.path, containsPath] at hk
    cases hg : pmGet P "glyphs" with
    | none =>
      simp [hg] at hk
    | some v =>
      cases v with
      | sentinel =>
        exact absurd rfl (hsent _ (pmGet_entry_mem_entries P _ _ hg))
      | sub m2 =>
        cases hg2 : pmGet m2 n with
        | none =>
          simp [hg, hg2] at hk
        | some w =>
          exact hglyphs n m2 (pmGet_entry_mem_entries P _ _ hg)
            (pmGet_mem_pmKeys m2 n w hg2)

/-- A concrete pattern touching one glyph and one root key for the C5
witness. -/
def examplePattern : PatMap :=
  .cons "glyphs" (.sub (.cons "A" .sentinel .nil)) (.cons "axes" .sentinel .nil)

/-- A concrete cache for the C5 witness. -/
def exampleCache : Cache :=
  [(DataKey.glyph "A", PyVal.pynone), (DataKey.root "axes", PyVal.pydata "x")]

theorem reloadData_clears_contained_witness :
    ∃ c2, reloadData examplePattern exampleCache = some c2 ∧
      ∀ k : DataKey, containsPath examplePattern k.path = true →
        dictGet c2 k = none :=
  reloadData_clears_contained examplePattern exampleCache
    (by
      intro v hv
      have hv2 : ("glyphs", v) =
          ("glyphs", PatVal.sub (.cons "A" .sentinel .nil)) ∨
          ("glyphs", v) = ("axes", PatVal.sentinel) := by
        simpa [examplePattern, pmEntries] using hv
      rcases hv2 with h | h
      · have hveq : v = PatVal.sub (.cons "A" .sentinel .nil) := by
          injection h
        subst hveq
        intro hfalse
        cases hfalse
      · have hs : "glyphs" = "axes" := by
          injection h with h1 _
        exact absurd hs (by decide))
    (by decide)

/-- C5 counterexample to the claim as stated: a pattern mapping the root key
"glyphs" directly to the null sentinel contains the path of the cached glyph
key ("glyphs", "A"), yet reloadData never completes on it — iterating the
None sentinel raises TypeError (modelled as none) — so no post-state with
the entry cleared exists. -/
theorem reloadData_glyphs_sentinel_cex :
    reloadData (PatMap.cons "glyphs" PatVal.sentinel PatMap.nil)
      [(DataKey.glyph "A", PyVal.pynone)] = none ∧
    containsPath (PatMap.cons "glyphs" PatVal.sentinel PatMap.nil)
      (DataKey.glyph "A").path = true ∧
    ¬ ∃ c2,
        reloadData (PatMap.cons "glyphs" PatVal.sentinel PatMap.nil)
          [(DataKey.glyph "A", PyVal.pynone)] = some c2 ∧
        ∀ k : DataKey,
          containsPath (PatMap.cons "glyphs" PatVal.sentinel PatMap.nil)
            k.path = true → dictGet c2 k = none := by
  refine ⟨rfl, rfl, ?_⟩
  rintro ⟨c2, h, _⟩
  rw [show reloadData (PatMap.cons "glyphs" PatVal.sentinel PatMap.nil)
      [(DataKey.glyph "A", PyVal.pynone)] = none from rfl] at h
  cases h

/-! ## C7: dependency-tracker symmetry -/

theorem depGetSet_zapStep (u : DepMap) (c0 g c : String) :
    depGetSet
      (if (dictGet u c0).isSome then
        dictSet u c0 ((depGetSet u c0).filter (fun x => x ≠ g))
      else u) c
      = if c = c0 then (depGetSet u c0).filter (fun x => x ≠ g)
        else depGetSet u c := by
  by_cases h0 : (dictGet u c0).isSome
  · simp only [if_pos h0]
    by_cases hc : c = c0
    · subst hc
      simp [depGetSet, dictGet_dictSet_self]
    · simp [depGetSet, dictGet_dictSet_ne _ _ _ _ hc, hc]
  · simp only [if_neg h0]
    by_cases hc : c = c0
    · subst hc
      have hn : dictGet u c = none := Option.not_isSome_iff_eq_none.mp h0
      simp [depGetSet, hn]
    · simp [hc]

theorem mem_zapUsedBy (g x c : String) :
    ∀ (cs : List String) (u : DepMap),
      x ∈ depGetSet (zapUsedBy g cs u) c ↔
        x ∈ depGetSet u c ∧ ¬(x = g ∧ c ∈ cs)
  | [], u => by simp [zapUsedBy]
  | c0 :: cs, u => by
    simp only [zapUsedBy]
    rw [mem_zapUsedBy g x c cs, depGetSet_zapStep]
    by_cases hc : c = c0
    · subst hc
      simp only [if_true, eq_self_iff_true, List.mem_filter,
        decide_eq_true_eq, List.mem_cons, true_or]
      tauto
    · simp only [if_neg hc, List.mem_cons]
      have hc2 : ¬ c = c0 := hc
      tauto

theorem mem_addUsedBy (g x c : String) :
    ∀ (cs : List String) (u : DepMap),
      x ∈ depGetSet (addUsedBy g cs u) c ↔
        x ∈ depGetSet u c ∨ (x = g ∧ c ∈ cs)
  | [], u => by simp [addUsedBy]
  | c0 :: cs, u => by
    simp only [addUsedBy]
    rw [mem_addUsedBy g x c cs]
    by_cases hc : c = c0
    · subst hc
      rw [show depGetSet (dictSet u c
          (if g ∈ depGetSet u c then depGetSet u c
           else depGetSet u c ++ [g])) c =
          (if g ∈ depGetSet u c then depGetSet u c
           else depGetSet u c ++ [g]) from by
        simp [depGetSet, dictGet_dictSet_self]]
      by_cases hg : g ∈ depGetSet u c
      · have himp : x = g → x ∈ depGetSet u c := fun hxg => hxg ▸ hg
        simp only [if_pos hg, List.mem_cons, eq_self_iff_true, true_or]
        tauto
      · simp only [if_neg hg, List.mem_append, List.mem_singleton,
          List.mem_cons, eq_self_iff_true, true_or]
        tauto
    · rw [show depGetSet (dictSet u c0
          (if g ∈ depGetSet u c0 then depGetSet u c0
           else depGetSet u c0 ++ [g])) c = depGetSet u c from by
        simp [depGetSet, dictGet_dictSet_ne _ _ _ _ hc]]
      simp only [List.mem_cons]
      have hc2 : ¬ c = c0 := hc
      tauto

theorem depGetSet_madeOf_update (mo : DepMap) (name : String)
    (comps : List String) (g : String) :
    depGetSet
      (if comps ≠ [] then dictSet mo name comps
       else if (dictGet mo name).isSome then dictPop mo name else mo) g
      = if g = name then comps else depGetSet mo g := by
  by_cases hne : comps ≠ []
  · simp only [if_pos hne]
    by_cases hg : g = name
    · subst hg
      simp [depGetSet, dictGet_dictSet_self]
    · simp [depGetSet, dictGet_dictSet_ne _ _ _ _ hg, hg]
  · simp only [if_neg hne]
    have hcomps : comps = [] := not_not.mp hne
    subst hcomps
    by_cases h0 : (dictGet mo name).isSome
    · simp only [if_pos h0]
      by_cases hg : g = name
      · subst hg
        simp [depGetSet, dictGet_dictPop_self]
      · simp [depGetSet, dictGet_dictPop_ne _ _ _ hg, hg]
    · simp only [if_neg h0]
      by_cases hg : g = name
      · subst hg
        have hn : dictGet mo g = none := Option.not_isSome_iff_eq_none.mp h0
        simp [depGetSet, hn]
      · simp [hg]

/-- C7: updateGlyphDependencies preserves the dependency-tracker symmetry:
whenever g in glyphUsedBy of c iff c in glyphMadeOf of g held before the
update, it holds after — the updater removes the glyph from the used-by set
of every previously recorded component, deletes the made-of entry when the
new component set is empty, and adds the glyph to the used-by set of every
new component. -/
theorem updateGlyphDependencies_preserves_depSym (st : DepState)
    (glyphName : String) (glyph : VariableGlyph)
    (h : depSym st) : depSym (updateGlyphDependencies st glyphName glyph) := by
  intro g c
  have hu : (updateGlyphDependencies st glyphName glyph).glyphUsedBy =
      addUsedBy glyphName (iterAllComponentNames glyph).dedup
        (zapUsedBy glyphName (depGetSet st.glyphMadeOf glyphName)
          st.glyphUsedBy) := rfl
  have hm : (updateGlyphDependencies st glyphName glyph).glyphMadeOf =
      (if (iterAllComponentNames glyph).dedup ≠ [] then
        dictSet st.glyphMadeOf glyphName (iterAllComponentNames glyph).dedup
       else if (dictGet st.glyphMadeOf glyphName).isSome then
        dictPop st.glyphMadeOf glyphName
       else st.glyphMadeOf) := rfl
  rw [hu, hm, mem_addUsedBy, mem_zapUsedBy, depGetSet_madeOf_update]
  have hiff := h g c
  by_cases hg : g = glyphName
  · subst hg
    simp only [if_true, eq_self_iff_true]
    tauto
  · simp only [if_neg hg]
    tauto

/-- A concrete glyph with one layer using one component for the C7 witness. -/
def exampleGlyph : VariableGlyph := ⟨[("default", ⟨⟨[⟨"B"⟩]⟩⟩)]⟩

theorem updateGlyphDependencies_preserves_depSym_witness :
    depSym (updateGlyphDependencies ⟨[], []⟩ "A" exampleGlyph) :=
  updateGlyphDependencies_preserves_depSym ⟨[], []⟩ "A" exampleGlyph
    (by
      intro g c
      simp [depGetSet, dictGet])

/-! ## C8: subscribe / unsubscribe round trip -/

theorem pmEntries_sizeOf_lt :
    ∀ (m : PatMap) (k : String) (v : PatVal), (k, v) ∈ pmEntries m →
      sizeOf v < sizeOf m
  | .nil, k, v, h => by simp [pmEntries] at h
  | .cons a w rest, k, v, h => by
    rcases (by simpa [pmEntries] using h :
        (k, v) = (a, w) ∨ (k, v) ∈ pmEntries rest) with h1 | h1
    · have hv : v = w := by
        injection h1
      subst hv
      simp
      omega
    · have := pmEntries_sizeOf_lt rest k v h1
      simp
      omega

theorem pmEntries_key_mem :
    ∀ (m : PatMap) (k : String) (v : PatVal), (k, v) ∈ pmEntries m →
      k ∈ pmKeys m
  | .nil, k, v, h => by simp [pmEntries] at h
  | .cons a w rest, k, v, h => by
    rcases (by simpa [pmEntries] using h :
        (k, v) = (a, w) ∨ (k, v) ∈ pmEntries rest) with h1 | h1
    · have hk : k = a := by
        injection h1 with h2 _
      simp [pmKeys, hk]
    · simp [pmKeys, pmEntries_key_mem rest k v h1]

theorem pmGet_none_iff :
    ∀ (m : PatMap) (k : String), pmGet m k = none ↔ k ∉ pmKeys m
  | .nil, k => by simp [pmGet, pmKeys]
  | .cons a w rest, k => by
    by_cases hk : k = a
    · simp [pmGet, pmKeys, hk]
    · simp only [pmGet, if_neg hk, pmKeys, List.mem_cons]
      rw [pmGet_none_iff rest k]
      simp [hk]

mutual
/-- Well-formedness of a pattern value: nested mappings are well-formed. -/
def pvWF : PatVal → Prop
  | .sentinel => True
  | .sub m => pmWF m

/-- Well-formedness of a pattern mapping: keys do not repeat (always true of
a Python dict) and all values are well-formed. -/
def pmWF : PatMap → Prop
  | .nil => True
  | .cons k v rest => ¬ (k ∈ pmKeys rest) ∧ pvWF v ∧ pmWF rest
end

theorem pmGet_of_entry :
    ∀ (m : PatMap) (k : String) (v : PatVal), pmWF m →
      (k, v) ∈ pmEntries m → pmGet m k = some v
  | .nil, k, v, _, h => by simp [pmEntries] at h
  | .cons a w rest, k, v, hwf, h => by
    obtain ⟨hnd, _, hrest⟩ := (by simpa [pmWF] using hwf :
      ¬ (a ∈ pmKeys rest) ∧ pvWF w ∧ pmWF rest)
    rcases (by simpa [pmEntries] using h :
        (k, v) = (a, w) ∨ (k, v) ∈ pmEntries rest) with h1 | h1
    · have hk : k = a := by
        injection h1 with h2 _
      have hv : v = w := by
        injection h1
      subst hk
      subst hv
      simp [pmGet]
    · have hk : ¬ k = a := by
        intro hk
        subst hk
        exact hnd (pmEntries_key_mem rest k v h1)
      simp only [pmGet, if_neg hk]
      exact pmGet_of_entry rest k v hrest h1

theorem pmWF_entry :
    ∀ (m : PatMap) (k : String) (v : PatVal), pmWF m →
      (k, v) ∈ pmEntries m → pvWF v
  | .nil, k, v, _, h => by simp [pmEntries] at h
  | .cons a w rest, k, v, hwf, h => by
    obtain ⟨_, hw, hrest⟩ := (by simpa [pmWF] using hwf :
      ¬ (a ∈ pmKeys rest) ∧ pvWF w ∧ pmWF rest)
    rcases (by simpa [pmEntries] using h :
        (k, v) = (a, w) ∨ (k, v) ∈ pmEntries rest) with h1 | h1
    · have hv : v = w := by
        injection h1
      subst hv
      exact hw
    · exact pmWF_entry rest k v hrest h1

theorem patternDifference_eq_nil_of :
    ∀ (Q P : PatMap),
      (∀ k v, (k, v) ∈ pmEntries Q →
        ∃ w, pmGet P k = some w ∧ diffVal v w = none) →
      patternDifference Q P = .nil
  | .nil, P, _ => by simp [patternDifference]
  | .cons k v rest, P, h => by
    obtain ⟨w, hw, hd⟩ := h k v (by simp [pmEntries])
    have hrec := patternDifference_eq_nil_of rest P
      (fun k2 v2 h2 => h k2 v2 (by simp [pmEntries, h2]))
    rw [patternDifference, hw]
    simp only [hd]
    exact hrec

theorem diffVal_self_aux :
    ∀ (n : Nat) (v : PatVal), sizeOf v < n → pvWF v → diffVal v v = none := by
  intro n
  induction n with
  | zero =>
    intro v hv _
    omega
  | succ n ih =>
    intro v hv hwf
    cases v with
    | sentinel => simp [diffVal]
    | sub x =>
      have hxwf : pmWF x := by simpa [pvWF] using hwf
      have hx : patternDifference x x = .nil := by
        apply patternDifference_eq_nil_of
        intro k w hw
        refine ⟨w, pmGet_of_entry x k w hxwf hw, ?_⟩
        apply ih
        · have h1 := pmEntries_sizeOf_lt x k w hw
          have h2 : sizeOf x < sizeOf (PatVal.sub x) := by
            simp
          omega
        · exact pmWF_entry x k w hxwf hw
      rw [diffVal, hx]

theorem diffVal_self (v : PatVal) (h : pvWF v) : diffVal v v = none :=
  diffVal_self_aux (sizeOf v + 1) v (by omega) h

theorem pmMergeLeft_disjoint :
    ∀ (S P : PatMap), (∀ k ∈ pmKeys S, pmGet P k = none) →
      pmMergeLeft S P = S
  | .nil, P, _ => by rw [pmMergeLeft]
  | .cons k v rest, P, h => by
    have hk : pmGet P k = none := h k (by simp [pmKeys])
    rw [pmMergeLeft, hk]
    rw [pmMergeLeft_disjoint rest P
      (fun k2 hk2 => h k2 (by simp [pmKeys, hk2]))]

theorem pmRightOnly_disjoint :
    ∀ (P S : PatMap), (∀ k ∈ pmKeys P, pmGet S k = none) →
      pmRightOnly P S = P
  | .nil, S, _ => by rw [pmRightOnly]
  | .cons k v rest, S, h => by
    have hk : pmGet S k = none := h k (by simp [pmKeys])
    rw [pmRightOnly, hk]
    rw [pmRightOnly_disjoint rest S
      (fun k2 hk2 => h k2 (by simp [pmKeys, hk2]))]

theorem patternUnion_disjoint (S P : PatMap)
    (h : ∀ k ∈ pmKeys S, pmGet P k = none) :
    patternUnion S P = pmAppend S P := by
  have h2 : ∀ k ∈ pmKeys P, pmGet S k = none := by
    intro k hk
    rw [pmGet_none_iff]
    intro hmem
    have := h k hmem
    rw [pmGet_none_iff] at this
    exact this hk
  rw [patternUnion, pmMergeLeft_disjoint S P h, pmRightOnly_disjoint P S h2]

theorem patternDifference_append_cancel :
    ∀ (S P : PatMap), pmWF P → (∀ k ∈ pmKeys S, pmGet P k = none) →
      patternDifference (pmAppend S P) P = S
  | .nil, P, hwf, _ => by
    rw [show pmAppend PatMap.nil P = P from rfl]
    apply patternDifference_eq_nil_of
    intro k v hv
    exact ⟨v, pmGet_of_entry P k v hwf hv,
      diffVal_self v (pmWF_entry P k v hwf hv)⟩
  | .cons k v rest, P, hwf, h => by
    have hk : pmGet P k = none := h k (by simp [pmKeys])
    rw [show pmAppend (PatMap.cons k v rest) P
        = PatMap.cons k v (pmAppend rest P) from rfl]
    rw [patternDifference, hk]
    rw [patternDifference_append_cancel rest P hwf
      (fun k2 hk2 => h k2 (by simp [pmKeys, hk2]))]

theorem getClientData_setClientData (cd : ClientData) (conn : Nat)
    (key : String) (p : PatMap) :
    getClientData (setClientData cd conn key p) conn key = p := by
  simp [getClientData, setClientData, dictGet_dictSet_self]

/-- C8 (amended): subscribeChanges(P, tier) followed by
unsubscribeChanges(P, tier) restores the stored subscription pattern S —
i.e. patternDifference(patternUnion(S, P), P) = S — provided the pattern P
is duplicate-key-free (as every Python dict is) and shares no root key with
S.  When S and P overlap, the composition leaves patternDifference(S, P)
instead. -/
theorem subscribe_unsubscribe_roundtrip (cd : ClientData) (conn : Nat)
    (live : Bool) (P : PatMap) (hwf : pmWF P)
    (hdisj : ∀ k ∈ pmKeys (getClientData cd conn
      (if live then LIVE_CHANGES_PATTERN_KEY else CHANGES_PATTERN_KEY)),
      pmGet P k = none) :
    patternDifference
        (patternUnion
          (getClientData cd conn
            (if live then LIVE_CHANGES_PATTERN_KEY else CHANGES_PATTERN_KEY))
          P) P
      = getClientData cd conn
          (if live then LIVE_CHANGES_PATTERN_KEY else CHANGES_PATTERN_KEY) ∧
    getClientData
        (unsubscribeChanges (subscribeChanges cd P live conn) P live conn)
        conn (if live then LIVE_CHANGES_PATTERN_KEY else CHANGES_PATTERN_KEY)
      = getClientData cd conn
          (if live then LIVE_CHANGES_PATTERN_KEY else CHANGES_PATTERN_KEY) := by
  have halg : patternDifference
      (patternUnion
        (getClientData cd conn
          (if live then LIVE_CHANGES_PATTERN_KEY else CHANGES_PATTERN_KEY))
        P) P
      = getClientData cd conn
          (if live then LIVE_CHANGES_PATTERN_KEY else CHANGES_PATTERN_KEY) := by
    rw [patternUnion_disjoint _ P hdisj,
      patternDifference_append_cancel _ P hwf hdisj]
  refine ⟨halg, ?_⟩
  rw [unsubscribeChanges, subscribeChanges, adjustMatchPattern,
    adjustMatchPattern, getClientData_setClientData,
    getClientData_setClientData, halg]

/-- A concrete subscription pattern for the C8 witness. -/
def exampleSubPattern : PatMap :=
  .cons "glyphs" (.sub (.cons "A" .sentinel .nil)) .nil

theorem subscribe_unsubscribe_roundtrip_witness :
    patternDifference
        (patternUnion
          (getClientData [] 0
            (if true then LIVE_CHANGES_PATTERN_KEY else CHANGES_PATTERN_KEY))
          exampleSubPattern) exampleSubPattern
      = getClientData [] 0
          (if true then LIVE_CHANGES_PATTERN_KEY else CHANGES_PATTERN_KEY) ∧
    getClientData
        (unsubscribeChanges
          (subscribeChanges [] exampleSubPattern true 0)
          exampleSubPattern true 0)
        0 (if true then LIVE_CHANGES_PATTERN_KEY else CHANGES_PATTERN_KEY)
      = getClientData [] 0
          (if true then LIVE_CHANGES_PATTERN_KEY else CHANGES_PATTERN_KEY) :=
  subscribe_unsubscribe_roundtrip [] 0 true exampleSubPattern
    (by simp [exampleSubPattern, pmWF, pvWF, pmKeys])
    (by
      intro k hk
      simp [getClientData, dictGet, pmKeys] at hk)

/-- C8 counterexample to the claim as stated: with an overlapping stored
pattern S = P = (axes -> sentinel), subscribe then unsubscribe empties the
store instead of restoring S: patternDifference(patternUnion(S, P), P) is
the empty pattern. -/
theorem subscribe_unsubscribe_roundtrip_cex :
    patternDifference
        (patternUnion (PatMap.cons "axes" .sentinel .nil)
          (PatMap.cons "axes" .sentinel .nil))
        (PatMap.cons "axes" .sentinel .nil)
      ≠ PatMap.cons "axes" .sentinel .nil ∧
    getClientData
        (unsubscribeChanges
          (subscribeChanges [(0, [(LIVE_CHANGES_PATTERN_KEY,
            PatMap.cons "axes" .sentinel .nil)])]
            (PatMap.cons "axes" .sentinel .nil) true 0)
          (PatMap.cons "axes" .sentinel .nil) true 0)
        0 LIVE_CHANGES_PATTERN_KEY
      ≠ getClientData [(0, [(LIVE_CHANGES_PATTERN_KEY,
          PatMap.cons "axes" .sentinel .nil)])] 0 LIVE_CHANGES_PATTERN_KEY := by
  have hu : patternUnion (PatMap.cons "axes" .sentinel .nil)
      (PatMap.cons "axes" .sentinel .nil)
      = PatMap.cons "axes" .sentinel .nil := by
    rw [patternUnion, pmMergeLeft, pmGet]
    simp [unionVal, pmMergeLeft, pmRightOnly, pmGet, pmAppend]
  have hd : patternDifference (PatMap.cons "axes" .sentinel .nil)
      (PatMap.cons "axes" .sentinel .nil) = PatMap.nil := by
    rw [patternDifference, pmGet]
    simp [diffVal, patternDifference]
  refine ⟨?_, ?_⟩
  · rw [hu, hd]
    intro h
    cases h
  · rw [unsubscribeChanges, subscribeChanges, adjustMatchPattern,
      adjustMatchPattern]
    simp only [eq_self_iff_true, if_true]
    rw [getClientData_setClientData, getClientData_setClientData]
    rw [show getClientData [(0, [(LIVE_CHANGES_PATTERN_KEY,
        PatMap.cons "axes" .sentinel .nil)])] 0 LIVE_CHANGES_PATTERN_KEY
        = PatMap.cons "axes" .sentinel .nil from rfl]
    rw [hu, hd]
    intro h
    cases h

/-! ## C3: read-only handlers never enqueue backend writes -/

theorem processGlyphsTouched_writes_off (gs : DictSetDelTracker)
    (gm : List (String × List Nat)) (conn : Option Nat) :
    ∀ (l : List String) (acc : Cache × List WriteReq),
      (processGlyphsTouched gs gm conn false l acc).2 = acc.2
  | [], _ => rfl
  | n :: rest, acc => by
    obtain ⟨c, w⟩ := acc
    simp only [processGlyphsTouched, Bool.false_eq_true, if_false]
    exact processGlyphsTouched_writes_off gs gm conn rest _

theorem processGlyphsDeleted_writes_off (conn : Option Nat) :
    ∀ (l : List String) (acc : Cache × List WriteReq),
      (processGlyphsDeleted conn false l acc).2 = acc.2
  | [], _ => rfl
  | n :: rest, acc => by
    obtain ⟨c, w⟩ := acc
    simp only [processGlyphsDeleted, Bool.false_eq_true, if_false]
    exact processGlyphsDeleted_writes_off conn rest _

theorem processRootKey_writes_off (ro : RootObject) (conn : Option Nat)
    (gm : List (String × List Nat)) (acc : Cache × List WriteReq)
    (rootKey : String) :
    (processRootKey ro conn false gm acc rootKey).2 = acc.2 := by
  rw [processRootKey]
  by_cases h : rootKey = "glyphs"
  · simp only [if_pos h]
    rw [processGlyphsDeleted_writes_off, processGlyphsTouched_writes_off]
  · simp only [if_neg h, Bool.false_eq_true, if_false]

theorem foldl_processRootKey_writes_off (ro : RootObject) (conn : Option Nat)
    (gm : List (String × List Nat)) :
    ∀ (L : List String) (acc : Cache × List WriteReq),
      (L.foldl (processRootKey ro conn false gm) acc).2 = acc.2
  | [], _ => rfl
  | s :: rest, acc => by
    rw [List.foldl_cons]
    rw [foldl_processRootKey_writes_off ro conn gm rest _]
    exact processRootKey_writes_off ro conn gm acc s

theorem updateLocalData_writes_off (rootKeys : List String) (ro : RootObject)
    (conn : Option Nat) (cache : Cache) (gm : List (String × List Nat)) :
    (updateLocalData rootKeys ro conn false cache gm).2 = [] := by
  rw [updateLocalData]
  exact foldl_processRootKey_writes_off ro conn gm _ _

theorem processGlyphsTouched_preserves_entry (gs : DictSetDelTracker)
    (gm : List (String × List Nat)) (conn : Option Nat) (wb : Bool)
    (name : String) :
    ∀ (l : List String) (acc : Cache × List WriteReq),
      dictGet acc.1 (.glyph name)
        = some ((dictGet gs.data name).getD .pynone) →
      dictGet (processGlyphsTouched gs gm conn wb l acc).1 (.glyph name)
        = some ((dictGet gs.data name).getD .pynone)
  | [], _, h => h
  | x :: rest, acc, h => by
    obtain ⟨c, w⟩ := acc
    simp only [processGlyphsTouched]
    apply processGlyphsTouched_preserves_entry gs gm conn wb name rest
    by_cases hx : x = name
    · subst hx
      by_cases hn : x ∈ gs.newKeys
      · simp only [if_pos hn]
        exact dictGet_dictSet_self c _ _
      · simp only [if_neg hn]
        exact h
    · by_cases hn : x ∈ gs.newKeys
      · simp only [if_pos hn]
        rw [dictGet_dictSet_ne c _ _ _ (by
          intro heq
          injection heq with heq2
          exact hx heq2.symm)]
        exact h
      · simp only [if_neg hn]
        exact h

theorem processGlyphsTouched_establishes_entry (gs : DictSetDelTracker)
    (gm : List (String × List Nat)) (conn : Option Nat) (wb : Bool)
    (name : String) (hnew : name ∈ gs.newKeys) :
    ∀ (l : List String) (acc : Cache × List WriteReq), name ∈ l →
      dictGet (processGlyphsTouched gs gm conn wb l acc).1 (.glyph name)
        = some ((dictGet gs.data name).getD .pynone)
  | [], _, h => by simp at h
  | x :: rest, acc, h => by
    obtain ⟨c, w⟩ := acc
    by_cases hx : x = name
    · subst hx
      simp only [processGlyphsTouched]
      apply processGlyphsTouched_preserves_entry
      simp only [if_pos hnew]
      exact dictGet_dictSet_self c _ _
    · have hmem : name ∈ rest := by
        rcases (by simpa using h : name = x ∨ name ∈ rest) with h1 | h1
        · exact absurd h1.symm hx
        · exact h1
      simp only [processGlyphsTouched]
      exact processGlyphsTouched_establishes_entry gs gm conn wb name hnew
        rest _ hmem

theorem processGlyphsDeleted_preserves_entry (conn : Option Nat) (wb : Bool)
    (name : String) (v : PyVal) :
    ∀ (l : List String) (acc : Cache × List WriteReq), name ∉ l →
      dictGet acc.1 (.glyph name) = some v →
      dictGet (processGlyphsDeleted conn wb l acc).1 (.glyph name) = some v
  | [], _, _, h => h
  | x :: rest, acc, hnot, h => by
    obtain ⟨c, w⟩ := acc
    have hx : ¬ x = name := by
      intro hx
      exact hnot (by simp [hx])
    have hrest : name ∉ rest := fun hr => hnot (by simp [hr])
    simp only [processGlyphsDeleted]
    apply processGlyphsDeleted_preserves_entry conn wb name v rest _ hrest
    show dictGet (dictPop c (DataKey.glyph x)) (DataKey.glyph name) = some v
    rw [dictGet_dictPop_ne c _ _ (by
      intro heq
      injection heq with heq2
      exact hx heq2.symm)]
    exact h

theorem processRootKey_preserves_entry (ro : RootObject) (conn : Option Nat)
    (wb : Bool) (gm : List (String × List Nat)) (name : String)
    (hnotdel : name ∉ ro.glyphs.deletedKeys) (acc : Cache × List WriteReq)
    (rootKey : String)
    (h : dictGet acc.1 (.glyph name)
      = some ((dictGet ro.glyphs.data name).getD .pynone)) :
    dictGet (processRootKey ro conn wb gm acc rootKey).1 (.glyph name)
      = some ((dictGet ro.glyphs.data name).getD .pynone) := by
  rw [processRootKey]
  by_cases hroot : rootKey = "glyphs"
  · simp only [if_pos hroot]
    apply processGlyphsDeleted_preserves_entry conn wb name _ _ _
      (fun hmem => hnotdel ((mem_sortedStrings name _).mp hmem))
    exact processGlyphsTouched_preserves_entry ro.glyphs gm conn wb name _ _ h
  · simp only [if_neg hroot]
    by_cases hass : rootKey ∈ ro.assignedAttributeNames
    · simp only [if_pos hass]
      rw [dictGet_dictSet_ne _ _ _ _ (by intro heq; cases heq)]
      exact h
    · simp only [if_neg hass]
      exact h

theorem processRootKey_establishes_entry (ro : RootObject) (conn : Option Nat)
    (wb : Bool) (gm : List (String × List Nat)) (name : String)
    (hdata : name ∈ dictKeys ro.glyphs.data)
    (hnew : name ∈ ro.glyphs.newKeys)
    (hnotdel : name ∉ ro.glyphs.deletedKeys) (acc : Cache × List WriteReq) :
    dictGet (processRootKey ro conn wb gm acc "glyphs").1 (.glyph name)
      = some ((dictGet ro.glyphs.data name).getD .pynone) := by
  rw [processRootKey]
  simp only [if_pos rfl]
  apply processGlyphsDeleted_preserves_entry conn wb name _ _ _
    (fun hmem => hnotdel ((mem_sortedStrings name _).mp hmem))
  exact processGlyphsTouched_establishes_entry ro.glyphs gm conn wb name hnew
    _ _ ((mem_sortedStrings name _).mpr hdata)

theorem foldl_processRootKey_preserves_entry (ro : RootObject)
    (conn : Option Nat) (wb : Bool) (gm : List (String × List Nat))
    (name : String) (hnotdel : name ∉ ro.glyphs.deletedKeys) :
    ∀ (L : List String) (acc : Cache × List WriteReq),
      dictGet acc.1 (.glyph name)
        = some ((dictGet ro.glyphs.data name).getD .pynone) →
      dictGet (L.foldl (processRootKey ro conn wb gm) acc).1 (.glyph name)
        = some ((dictGet ro.glyphs.data name).getD .pynone)
  | [], _, h => h
  | t :: ts, acc, h => by
    rw [List.foldl_cons]
    exact foldl_processRootKey_preserves_entry ro conn wb gm name hnotdel ts _
      (processRootKey_preserves_entry ro conn wb gm name hnotdel acc t h)

theorem foldl_processRootKey_establishes_entry (ro : RootObject)
    (conn : Option Nat) (wb : Bool) (gm : List (String × List Nat))
    (name : String)
    (hdata : name ∈ dictKeys ro.glyphs.data)
    (hnew : name ∈ ro.glyphs.newKeys)
    (hnotdel : name ∉ ro.glyphs.deletedKeys) :
    ∀ (L : List String) (acc : Cache × List WriteReq), "glyphs" ∈ L →
      dictGet (L.foldl (processRootKey ro conn wb gm) acc).1 (.glyph name)
        = some ((dictGet ro.glyphs.data name).getD .pynone)
  | [], _, h => by simp at h
  | s :: rest, acc, h => by
    rw [List.foldl_cons]
    by_cases hs : "glyphs" ∈ rest
    · exact foldl_processRootKey_establishes_entry ro conn wb gm name hdata
        hnew hnotdel rest _ hs
    · have hsg : s = "glyphs" := by
        rcases (by simpa using h : "glyphs" = s ∨ "glyphs" ∈ rest) with h1 | h1
        · exact h1.symm
        · exact absurd h1 hs
      subst hsg
      exact foldl_processRootKey_preserves_entry ro conn wb gm name hnotdel
        rest _ (processRootKey_establishes_entry ro conn wb gm name hdata
          hnew hnotdel acc)

/-- C3: with readOnly = true no edit ever enqueues a backend write — writes
are enabled exactly when the change is not external and readOnly is false —
and with readOnly = true, dummyEditor = true, isReadOnly() returns false
while editFinal still updates the cache (the edited glyph is cached) and
broadcasts when requested, enqueuing no backend write. -/
theorem readOnly_no_backend_writes
    (rootKeys : List String) (ro : RootObject) (conn : Nat) (cache : Cache)
    (glyphMap : List (String × List Nat)) (isExternalChange broadcast : Bool)
    (matchCP : String → PatMap → Bool) (connections : List Nat)
    (cd : ClientData) (finalChange : String) (name : String)
    (hg : "glyphs" ∈ rootKeys)
    (hdata : name ∈ dictKeys ro.glyphs.data)
    (hnew : name ∈ ro.glyphs.newKeys)
    (hnotdel : name ∉ ro.glyphs.deletedKeys) :
    updateLocalDataAndWriteToBackend true isExternalChange rootKeys ro
        (some conn) cache glyphMap
      = updateLocalData rootKeys ro (some conn) false cache glyphMap ∧
    (updateLocalDataAndWriteToBackend true isExternalChange rootKeys ro
        (some conn) cache glyphMap).2 = [] ∧
    isReadOnly true true = false ∧
    (editFinal matchCP connections cd true rootKeys ro conn cache glyphMap
        finalChange broadcast).1.2 = [] ∧
    dictGet (editFinal matchCP connections cd true rootKeys ro conn cache
        glyphMap finalChange broadcast).1.1 (.glyph name)
      = some ((dictGet ro.glyphs.data name).getD .pynone) ∧
    (editFinal matchCP connections cd true rootKeys ro conn cache glyphMap
        finalChange broadcast).2
      = (if broadcast then
          broadcastChange matchCP connections cd finalChange (some conn) false
         else []) := by
  have hflag : updateLocalDataAndWriteToBackend true isExternalChange rootKeys
      ro (some conn) cache glyphMap
      = updateLocalData rootKeys ro (some conn) false cache glyphMap := by
    cases isExternalChange <;> rfl
  refine ⟨hflag, ?_, rfl, ?_, ?_, rfl⟩
  · rw [hflag]
    exact updateLocalData_writes_off rootKeys ro (some conn) cache glyphMap
  · show (updateLocalDataAndWriteToBackend true false rootKeys ro
      (some conn) cache glyphMap).2 = []
    rw [show updateLocalDataAndWriteToBackend true false rootKeys ro
        (some conn) cache glyphMap
        = updateLocalData rootKeys ro (some conn) false cache glyphMap
      from rfl]
    exact updateLocalData_writes_off rootKeys ro (some conn) cache glyphMap
  · show dictGet (updateLocalDataAndWriteToBackend true false rootKeys ro
      (some conn) cache glyphMap).1 (.glyph name)
      = some ((dictGet ro.glyphs.data name).getD .pynone)
    rw [show updateLocalDataAndWriteToBackend true false rootKeys ro
        (some conn) cache glyphMap
        = updateLocalData rootKeys ro (some conn) false cache glyphMap
      from rfl]
    rw [updateLocalData]
    exact foldl_processRootKey_establishes_entry ro (some conn) false glyphMap
      name hdata hnew hnotdel _ _ (by simp [hg])

/-- A concrete root object editing one glyph for the C3 witness. -/
def exampleRootObject : RootObject :=
  ⟨⟨[("A", PyVal.pydata "glyphA")], ["A"], []⟩, [], []⟩

theorem readOnly_no_backend_writes_witness :
    updateLocalDataAndWriteToBackend true false ["glyphs"]
        exampleRootObject (some 3) [] []
      = updateLocalData ["glyphs"] exampleRootObject (some 3) false [] [] ∧
    (updateLocalDataAndWriteToBackend true false ["glyphs"]
        exampleRootObject (some 3) [] []).2 = [] ∧
    isReadOnly true true = false ∧
    (editFinal (fun _ _ => true) [] [] true ["glyphs"] exampleRootObject 3
        [] [] "change" true).1.2 = [] ∧
    dictGet (editFinal (fun _ _ => true) [] [] true ["glyphs"]
        exampleRootObject 3 [] [] "change" true).1.1 (.glyph "A")
      = some ((dictGet exampleRootObject.glyphs.data "A").getD .pynone) ∧
    (editFinal (fun _ _ => true) [] [] true ["glyphs"] exampleRootObject 3
        [] [] "change" true).2
      = (if true then
          broadcastChange (fun _ _ => true) [] [] "change" (some 3) false
         else []) :=
  readOnly_no_backend_writes ["glyphs"] exampleRootObject 3 [] [] false true
    (fun _ _ => true) [] [] "change" "A"
    (by decide) (by decide) (by decide) (by decide)

/-! ## C9: deep-copy discipline of enqueued write payloads -/

theorem dictGet_some_mem {α β : Type} [DecidableEq α] (m : List (α × β))
    (k : α) (v : β) (h : dictGet m k = some v) : k ∈ dictKeys m := by
  by_contra hk
  rw [← dictGet_eq_none_iff] at hk
  rw [h] at hk
  cases hk

theorem dictGet_append_ne_last {α β : Type} [DecidableEq α] (k : α) (c : β) :
    ∀ (m : List (α × β)) (a : α), a ≠ k →
      dictGet (m ++ [(k, c)]) a = dictGet m a
  | [], a, h => by simp [dictGet, h]
  | (x, y) :: rest, a, h => by
    by_cases hx : a = x
    · simp [dictGet, hx]
    · simp only [List.cons_append, dictGet, if_neg hx]
      exact dictGet_append_ne_last k c rest a h

theorem hget_lt_next (h : Heap) (a : Nat) (c : Cell) (hwf : h.wf)
    (hg : hget h a = some c) : a < h.next := by
  have hmem := dictGet_some_mem h.cells a c hg
  simp only [dictKeys, List.mem_map] at hmem
  obtain ⟨p, hp, hpk⟩ := hmem
  rw [← hpk]
  exact hwf p hp

theorem hget_halloc_old (h : Heap) (c : Cell) (a : Nat) (ha : a ≠ h.next) :
    hget (halloc h c).2 a = hget h a := by
  simp only [halloc, hget]
  exact dictGet_append_ne_last h.next c h.cells a ha

theorem dictGet_append_last_none {α β : Type} [DecidableEq α] (k : α)
    (c : β) :
    ∀ (m : List (α × β)), dictGet m k = none →
      dictGet (m ++ [(k, c)]) k = some c
  | [], _ => by simp [dictGet]
  | (x, y) :: rest, h => by
    by_cases hx : k = x
    · subst hx
      simp [dictGet] at h
    · simp only [List.cons_append, dictGet, if_neg hx] at h ⊢
      exact dictGet_append_last_none k c rest h

theorem hget_halloc_new (h : Heap) (c : Cell) (hwf : h.wf) :
    hget (halloc h c).2 h.next = some c := by
  have hn : dictGet h.cells h.next = none := by
    rw [dictGet_eq_none_iff]
    intro hmem
    simp only [dictKeys, List.mem_map] at hmem
    obtain ⟨p, hp, hpk⟩ := hmem
    have := hwf p hp
    omega
  simp only [halloc, hget]
  exact dictGet_append_last_none h.next c h.cells hn

theorem halloc_wf (h : Heap) (c : Cell) (hwf : h.wf) : (halloc h c).2.wf := by
  intro p hp
  simp only [halloc] at hp ⊢
  rcases (by simpa using hp : p ∈ h.cells ∨ p = (h.next, c)) with h1 | h1
  · have := hwf p h1
    omega
  · subst h1
    omega

theorem forall₂_imp_mem {α β : Type} {R S : α → β → Prop} :
    ∀ {l1 : List α} {l2 : List β}, List.Forall₂ R l1 l2 →
      (∀ a ∈ l1, ∀ b, R a b → S a b) → List.Forall₂ S l1 l2 := by
  intro l1 l2 h
  induction h with
  | nil => intro _; exact .nil
  | cons hr ht ih =>
    intro himp
    exact .cons (himp _ (by simp) _ hr)
      (ih (fun a ha b hr2 => himp a (by simp [ha]) b hr2))

theorem forall₂_map_eq {α β : Type} {g1 : α → Option Cell}
    {g2 : β → Option Cell} :
    ∀ {l1 : List α} {l2 : List β},
      List.Forall₂ (fun f a => g2 a = g1 f) l1 l2 →
      l2.map g2 = l1.map g1 := by
  intro l1 l2 h
  induction h with
  | nil => rfl
  | cons hr _ ih => simp [ih, hr]

theorem copyFields_spec :
    ∀ (fs : List Nat) (h0 : Heap) (done : List Nat),
      (∀ f ∈ fs, f < h0.next) → Heap.wf h0 →
      ∃ fs2 h1, copyFields fs (done, h0) = (done ++ fs2, h1) ∧
        h0.next ≤ h1.next ∧ Heap.wf h1 ∧
        (∀ a, a < h0.next → hget h1 a = hget h0 a) ∧
        List.Forall₂ (fun f a => h0.next ≤ a ∧ a < h1.next ∧
          hget h1 a = some ((hget h0 f).getD (.leaf ""))) fs fs2
  | [], h0, done, _, hwf =>
    ⟨[], h0, by simp [copyFields], le_refl _, hwf, fun a _ => rfl, .nil⟩
  | f :: fs, h0, done, hlt, hwf => by
    have hf : f < h0.next := hlt f (by simp)
    obtain ⟨fs2, h1, heq, hle, hwf1, hold, hrel⟩ :=
      copyFields_spec fs (halloc h0 ((hget h0 f).getD (.leaf ""))).2
        (done ++ [h0.next])
        (by
          intro x hx
          have := hlt x (by simp [hx])
          simp only [halloc]
          omega)
        (halloc_wf h0 _ hwf)
    have hnext1 : (halloc h0 ((hget h0 f).getD (.leaf ""))).2.next
        = h0.next + 1 := rfl
    refine ⟨h0.next :: fs2, h1, ?_, by omega, hwf1, ?_, ?_⟩
    · rw [copyFields]
      rw [show (halloc h0 ((hget h0 f).getD (.leaf ""))).1 = h0.next
        from rfl]
      rw [heq]
      simp
    · intro a ha
      rw [hold a (by omega), hget_halloc_old h0 _ a (by omega)]
    · refine .cons ⟨le_refl _, ?_, ?_⟩ ?_
      · omega
      · rw [hold h0.next (by omega), hget_halloc_new h0 _ hwf]
      · apply forall₂_imp_mem hrel
        intro x hx a hr
        obtain ⟨h1a, h2a, h3a⟩ := hr
        refine ⟨by omega, h2a, ?_⟩
        rw [h3a, hget_halloc_old h0 _ x (by
          have := hlt x (by simp [hx])
          omega)]

theorem deepcopy_spec (h : Heap) (r : Nat) (fs : List Nat)
    (hwf : h.wf) (hr : hget h r = some (.obj fs))
    (hfs : ∀ f ∈ fs, ∃ d, hget h f = some (Cell.leaf d)) :
    ∃ p h2 fs2, deepcopy h r = (p, h2) ∧
      h.next ≤ p ∧
      hget h2 p = some (.obj fs2) ∧
      (∀ a ∈ fs2, h.next ≤ a ∧ a < p) ∧
      List.Forall₂ (fun f a => hget h2 a = hget h f) fs fs2 ∧
      (∀ a, a < h.next → hget h2 a = hget h a) := by
  have hflt : ∀ f ∈ fs, f < h.next := by
    intro f hf
    obtain ⟨d, hd⟩ := hfs f hf
    exact hget_lt_next h f _ hwf hd
  obtain ⟨fs2, h1, heq, hle, hwf1, hold, hrel⟩ :=
    copyFields_spec fs h ([] : List Nat) hflt hwf
  refine ⟨h1.next, (halloc h1 (.obj fs2)).2, fs2, ?_, hle, ?_, ?_, ?_, ?_⟩
  · have heq2 : copyFields fs ([], h) = (fs2, h1) := by
      simpa using heq
    rw [deepcopy, hr]
    show halloc (copyFields fs ([], h)).2
        (Cell.obj (copyFields fs ([], h)).1)
      = (h1.next, (halloc h1 (.obj fs2)).2)
    rw [heq2]
    rfl
  · exact hget_halloc_new h1 _ hwf1
  · intro a ha
    have := List.forall₂_iff_zip.mp hrel
    obtain ⟨hlen, hall⟩ := this
    have hmem : ∃ f, (f, a) ∈ List.zip fs fs2 := by
      obtain ⟨i, hi, hia⟩ := List.mem_iff_getElem.mp ha
      refine ⟨fs[i], ?_⟩
      rw [List.mem_iff_getElem]
      refine ⟨i, by rw [List.length_zip]; omega, ?_⟩
      rw [List.getElem_zip]
      rw [hia]
    obtain ⟨f, hfa⟩ := hmem
    have := hall hfa
    exact ⟨this.1, this.2.1⟩
  · apply forall₂_imp_mem hrel
    intro f hf a hr2
    obtain ⟨h1a, h2a, h3a⟩ := hr2
    rw [hget_halloc_old h1 _ a (by omega), h3a]
    obtain ⟨d, hd⟩ := hfs f hf
    rw [hd]
    rfl
  · intro a ha
    rw [hget_halloc_old h1 _ a (by omega), hold a ha]

/-- C9: the enqueued putGlyph payload built by _updateLocalData is a deep
copy of the glyph value taken at enqueue time — the payload object and its
field cells are fresh, so mutating the cached value (the original object or
any of its fields, as a later edit does) after editFinal returns leaves the
already-enqueued payload's dereferenced value unchanged. -/
theorem deepcopy_payload_isolated (heap : Heap) (gname : String) (r : Nat)
    (cps : List Nat) (fs : List Nat)
    (hwf : heap.wf) (hr : hget heap r = some (.obj fs))
    (hfs : ∀ f ∈ fs, ∃ d, hget heap f = some (Cell.leaf d)) :
    ∃ thunk h2, buildPutGlyphThunk heap gname r cps = (thunk, h2) ∧
      thunk.name = gname ∧ thunk.codepoints = cps ∧
      derefObj h2 thunk.payloadRef = derefObj heap r ∧
      ∀ a, (a = r ∨ a ∈ fs) → ∀ cnew,
        derefObj (hset h2 a cnew) thunk.payloadRef = derefObj heap r := by
  obtain ⟨p, h2, fs2, heq, hle, hp, hbounds, hrel, hold⟩ :=
    deepcopy_spec heap r fs hwf hr hfs
  have hmapeq : fs2.map (hget h2) = fs.map (hget heap) :=
    forall₂_map_eq hrel
  have hderef : derefObj h2 p = derefObj heap r := by
    rw [derefObj, hp, derefObj, hr]
    exact congrArg some hmapeq
  refine ⟨⟨gname, p, cps⟩, h2, ?_, rfl, rfl, hderef, ?_⟩
  · rw [buildPutGlyphThunk, heq]
  · intro a ha cnew
    have halt : a < heap.next := by
      rcases ha with h1 | h1
      · subst h1
        exact hget_lt_next heap a _ hwf hr
      · obtain ⟨d, hd⟩ := hfs a h1
        exact hget_lt_next heap a _ hwf hd
    have hpa : p ≠ a := by omega
    have hget_set : ∀ x, x ≠ a → hget (hset h2 a cnew) x = hget h2 x := by
      intro x hx
      simp only [hset, hget]
      exact dictGet_dictSet_ne _ _ _ _ hx
    have hmap2 : fs2.map (hget (hset h2 a cnew)) = fs2.map (hget h2) := by
      apply List.map_congr_left
      intro x hx
      have hxa : x ≠ a := by
        have := hbounds x hx
        omega
      exact hget_set x hxa
    rw [derefObj, hget_set p hpa, hp, derefObj, hr]
    exact congrArg some (hmap2.trans hmapeq)

/-- A concrete two-cell heap (a glyph object with one leaf field) for the C9
witness. -/
def exampleHeap : Heap := ⟨[(0, .obj [1]), (1, .leaf "stroke")], 2⟩

theorem deepcopy_payload_isolated_witness :
    ∃ thunk h2, buildPutGlyphThunk exampleHeap "A" 0 [65] = (thunk, h2) ∧
      thunk.name = "A" ∧ thunk.codepoints = [65] ∧
      derefObj h2 thunk.payloadRef = derefObj exampleHeap 0 ∧
      ∀ a, (a = 0 ∨ a ∈ [1]) → ∀ cnew,
        derefObj (hset h2 a cnew) thunk.payloadRef
          = derefObj exampleHeap 0 :=
  deepcopy_payload_isolated exampleHeap "A" 0 [65] [1]
    (by
      intro p hp
      simp only [exampleHeap] at hp
      rcases (by simpa using hp :
          p = ((0 : Nat), Cell.obj [1]) ∨ p = ((1 : Nat), Cell.leaf "stroke"))
        with h1 | h1 <;> (subst h1; simp [exampleHeap]))
    rfl
    (by
      intro f hf
      have hf1 : f = 1 := by simpa using hf
      subst hf1
      exact ⟨"stroke", rfl⟩)

/-! ## C2: writer failure handling in the write cycle -/

/-- C2: when a writer thunk raises during the write cycle, the cache entry
of the affected DataKey is invalidated via reloadData of the write key's
pattern; with a recorded originating connection that connection gets a
messageFromServer revert notice and the cycle continues with the next entry;
without one the exception is stored as the scheduler error, the write task
terminates nulling the queue, and every subsequent finishWriting raises the
stored error. -/
theorem processWrites_writer_failure
    (k : DataKey) (m : String) (conn : Option Nat) (rest : WriteQueue)
    (c : Cache) (hk : k ≠ .root "glyphs") :
    ∃ c2, reloadData (writeKeyToPattern k) c = some c2 ∧
      dictGet c2 k = none ∧
      (∀ cid, conn = some cid →
        processWritesOneCycle ((k, (.err m, conn)) :: rest) c =
          ⟨(processWritesOneCycle rest c2).cache,
           .reloadCalled (writeKeyToPattern k) ::
             .messageFromServer cid
               "The data could not be saved due to an error." ::
             (processWritesOneCycle rest c2).events,
           (processWritesOneCycle rest c2).error⟩) ∧
      (conn = none →
        processWritesOneCycle ((k, (.err m, conn)) :: rest) c =
          ⟨c2, [.reloadCalled (writeKeyToPattern k)],
           some (.writeError m)⟩ ∧
        ∀ st : SchedulerState,
          st.dataScheduledForWriting = some ((k, (.err m, none)) :: rest) →
          st.localData = c →
          (runProcessWrites st).1.dataScheduledForWriting = none ∧
          (runProcessWrites st).1.processWritesError
            = some (.writeError m) ∧
          finishWriting (runProcessWrites st).1
            = .error (.writeError m)) := by
  obtain ⟨c2, hr, hnone, _⟩ := reloadData_writeKeyToPattern k c hk
  refine ⟨c2, hr, hnone, ?_, ?_⟩
  · intro cid heq
    subst heq
    simp only [processWritesOneCycle, hr]
  · intro heq
    subst heq
    have hcycle : processWritesOneCycle ((k, (.err m, none)) :: rest) c =
        ⟨c2, [.reloadCalled (writeKeyToPattern k)],
         some (.writeError m)⟩ := by
      simp only [processWritesOneCycle, hr]
    refine ⟨hcycle, ?_⟩
    intro st hq hc
    have hrun : runProcessWrites st =
        ({ dataScheduledForWriting := none, localData := c2,
           processWritesError := some (.writeError m) },
         [.reloadCalled (writeKeyToPattern k)]) := by
      simp only [runProcessWrites, hq, hc, hcycle]
    rw [hrun]
    exact ⟨rfl, rfl, rfl⟩

theorem processWrites_writer_failure_witness :
    ∃ c2,
      reloadData (writeKeyToPattern (DataKey.glyph "B"))
        [(DataKey.glyph "B", PyVal.pynone)] = some c2 ∧
      dictGet c2 (DataKey.glyph "B") = none ∧
      (∀ cid, (none : Option Nat) = some cid →
        processWritesOneCycle
            ((DataKey.glyph "B", (.err "disk full", none)) :: [])
            [(DataKey.glyph "B", PyVal.pynone)] =
          ⟨(processWritesOneCycle [] c2).cache,
           .reloadCalled (writeKeyToPattern (DataKey.glyph "B")) ::
             .messageFromServer cid
               "The data could not be saved due to an error." ::
             (processWritesOneCycle [] c2).events,
           (processWritesOneCycle [] c2).error⟩) ∧
      ((none : Option Nat) = none →
        processWritesOneCycle
            ((DataKey.glyph "B", (.err "disk full", none)) :: [])
            [(DataKey.glyph "B", PyVal.pynone)] =
          ⟨c2, [.reloadCalled (writeKeyToPattern (DataKey.glyph "B"))],
           some (.writeError "disk full")⟩ ∧
        ∀ st : SchedulerState,
          st.dataScheduledForWriting
            = some ((DataKey.glyph "B", (.err "disk full", none)) :: []) →
          st.localData = [(DataKey.glyph "B", PyVal.pynone)] →
          (runProcessWrites st).1.dataScheduledForWriting = none ∧
          (runProcessWrites st).1.processWritesError
            = some (.writeError "disk full") ∧
          finishWriting (runProcessWrites st).1
            = .error (.writeError "disk full")) :=
  processWrites_writer_failure (DataKey.glyph "B") "disk full" none []
    [(DataKey.glyph "B", PyVal.pynone)] (by decide)

/-- C6 counterexample to the claim as stated: with the queue nulled and
connection None, the code still enqueues nothing, but instead of notifying a
caller it raises AttributeError (None has no attribute proxy): the only
event is the reload, and an exception escapes. -/
theorem scheduleDataWrite_after_shutdown_none_conn_cex :
    (scheduleDataWrite ⟨none, [], none⟩ (DataKey.glyph "A") WOutcome.ok
        none).events =
      [.reloadCalled (writeKeyToPattern (DataKey.glyph "A"))] ∧
    (scheduleDataWrite ⟨none, [], none⟩ (DataKey.glyph "A") WOutcome.ok
        none).raised = some PyErr.attributeError ∧
    (scheduleDataWrite ⟨none, [], none⟩ (DataKey.glyph "A") WOutcome.ok
        none).state.dataScheduledForWriting = none := by
  refine ⟨?_, ?_, ?_⟩ <;> rfl

end Fontra
